import Mathlib

/-!
# Verification of the feanor-math core against its specification

This file gives a shallow embedding in Lean 4 of the parts of the
feanor-math computer-algebra kernel that the specification claims
describe, and settles each claim against the code.

Conventions:
* machine integers are modelled as `ℕ` / `ℤ` with explicit wrapping or
  truncation where the code relies on it;
* components of the repository that are referenced but whose source file
  is not part of the crate snapshot (`zn_barett.rs`, `cooley_tuckey.rs`,
  the `miller_rabin` and `algorithms::bigint` kernels) are modelled from
  the specification; each such definition carries a doc comment starting
  with `Modelled from the spec:`.
-/

/-! ## Basic bit-length helpers

`u128::leading_zeros` and `abs_highest_set_bit` are expressed through a
bit-length function.  The implementation is fuel-based structural
recursion so that the kernel can evaluate it on concrete inputs. -/

/-- Auxiliary fuel-driven loop for `bitLen`. -/
def bitLenF : ℕ → ℕ → ℕ
  | 0, _ => 0
  | fuel+1, n => if n = 0 then 0 else bitLenF fuel (n / 2) + 1

/-- Number of binary digits of `n` (`0` for `n = 0`): `bitLen n = ⌊log2 n⌋ + 1`
for `n > 0`.  Mirrors `128 - leading_zeros` / `abs_highest_set_bit + 1`. -/
def bitLen (n : ℕ) : ℕ := bitLenF n n

theorem bitLenF_eq (fuel n : ℕ) (h : n ≤ fuel) : bitLenF fuel n = Nat.size n := by
  induction fuel generalizing n with
  | zero =>
    interval_cases n
    simp [bitLenF, Nat.size]
  | succ fuel ih =>
    rcases Nat.eq_zero_or_pos n with rfl | hn
    · simp [bitLenF, Nat.size]
    · have h2 : n / 2 ≤ fuel := by omega
      rw [bitLenF, if_neg (by omega), ih _ h2]
      rcases Nat.even_or_odd n with ⟨c, hc⟩ | ⟨c, hc⟩
      · subst hc
        have : c ≠ 0 := by omega
        rw [show c + c = 2 * c by ring, Nat.mul_div_cancel_left _ (by norm_num)]
        simpa [Nat.size_bit, Nat.bit, this] using (Nat.size_bit (b := false) (n := c) (by simpa [Nat.bit] using by omega)).symm
      · subst hc
        rw [show (2 * c + 1) / 2 = c by omega]
        simpa [Nat.size_bit, Nat.bit] using (Nat.size_bit (b := true) (n := c) (by simp [Nat.bit])).symm

theorem bitLen_eq_size (n : ℕ) : bitLen n = Nat.size n := bitLenF_eq n n le_rfl

theorem lt_two_pow_bitLen (n : ℕ) : n < 2 ^ bitLen n := by
  rw [bitLen_eq_size]; exact Nat.lt_size_self n

theorem two_pow_bitLen_le {n : ℕ} (h : 0 < n) : 2 ^ (bitLen n - 1) ≤ n := by
  rw [bitLen_eq_size]
  have h1 : 0 < Nat.size n := Nat.size_pos.mpr h
  exact Nat.lt_size.mp (by omega)

/-! ## C6: big-integer Euclidean division (`rings/bigint.rs`) -/

/-- Sign-magnitude big integer, `DefaultBigIntRingEl` from `rings/bigint.rs`:
a sign flag and a magnitude (the little-endian digit vector is modelled by
the natural number it denotes). -/
structure DefaultBigIntRingEl where
  sign : Bool
  mag : ℕ

/-- The integer value denoted by a sign-magnitude pair. -/
def DefaultBigIntRingEl.val (x : DefaultBigIntRingEl) : ℤ :=
  if x.sign then -(x.mag : ℤ) else (x.mag : ℤ)

/-- Modelled from the spec: the magnitude-division kernel
`algorithms::bigint::bigint_div` is not under `src/` ("big-integer
primitives (assumed available)"); it divides magnitudes, leaving the
remainder `|lhs| mod |rhs|` in place and returning the quotient
`⌊|lhs| / |rhs|⌋`. -/
def bigint_div (lhs rhs : ℕ) : ℕ × ℕ := (lhs / rhs, lhs % rhs)

/-- `EuclideanRing::euclidean_div_rem` for `DefaultBigIntRing`
(`rings/bigint.rs` lines 223-230): magnitudes are divided by `bigint_div`,
the quotient is negated iff the operand signs differ (`rhs.0 ^ lhs.0`), and
the remainder keeps the dividend's sign flag. -/
def euclidean_div_rem (lhs rhs : DefaultBigIntRingEl) :
    DefaultBigIntRingEl × DefaultBigIntRingEl :=
  (⟨xor lhs.sign rhs.sign, (bigint_div lhs.mag rhs.mag).1⟩,
   ⟨lhs.sign, (bigint_div lhs.mag rhs.mag).2⟩)

/-- C6: for big integers `a`, `b` with `b` nonzero, `euclidean_div_rem a b = (q, r)`
satisfies `a = q·b + r` and `|r| < |b|`; the quotient is the truncated
(toward-zero) quotient `a.tdiv b`, with magnitude `⌊|a|/|b|⌋`; the sign flag of
`q` is the XOR of the operand sign flags and the sign flag of `r` is the
dividend's. -/
theorem euclidean_div_rem_spec (a b : DefaultBigIntRingEl) (hb : b.mag ≠ 0) :
    (euclidean_div_rem a b).1.val * b.val + (euclidean_div_rem a b).2.val = a.val ∧
    (euclidean_div_rem a b).2.val.natAbs < b.val.natAbs ∧
    (euclidean_div_rem a b).1.val = a.val.tdiv b.val ∧
    (euclidean_div_rem a b).1.mag = a.mag / b.mag ∧
    (euclidean_div_rem a b).1.sign = xor a.sign b.sign ∧
    (euclidean_div_rem a b).2.sign = a.sign := by
  obtain ⟨sa, ma⟩ := a
  obtain ⟨sb, mb⟩ := b
  simp only at hb
  have hdm : (ma / mb) * mb + ma % mb = ma := by
    rw [Nat.mul_comm]; exact Nat.div_add_mod ma mb
  have hdmz : ((ma / mb : ℕ) : ℤ) * (mb : ℤ) + ((ma % mb : ℕ) : ℤ) = (ma : ℤ) := by
    exact_mod_cast congrArg (fun k : ℕ => (k : ℤ)) hdm
  have hmod : ma % mb < mb := Nat.mod_lt _ (Nat.pos_of_ne_zero hb)
  have htd : ((ma : ℤ)).tdiv ((mb : ℤ)) = ((ma / mb : ℕ) : ℤ) := (Int.ofNat_tdiv ma mb).symm
  refine ⟨?_, ?_, ?_, rfl, rfl, rfl⟩
  · cases sa <;> cases sb <;>
      simp only [euclidean_div_rem, bigint_div, DefaultBigIntRingEl.val,
        Bool.xor_false, Bool.xor_true, Bool.not_true, Bool.not_false, if_true, if_false,
        Bool.false_eq_true, Bool.true_eq_false, ite_true, ite_false] <;>
      linarith [hdmz]
  · cases sa <;> cases sb <;>
      simp only [euclidean_div_rem, bigint_div, DefaultBigIntRingEl.val,
        Bool.xor_false, Bool.xor_true, Bool.not_true, Bool.not_false,
        Bool.false_eq_true, Bool.true_eq_false, ite_true, ite_false,
        Int.natAbs_neg, Int.natAbs_ofNat] <;>
      exact hmod
  · cases sa <;> cases sb <;>
      simp only [euclidean_div_rem, bigint_div, DefaultBigIntRingEl.val,
        Bool.xor_false, Bool.xor_true, Bool.not_true, Bool.not_false,
        Bool.false_eq_true, Bool.true_eq_false, ite_true, ite_false,
        Int.tdiv_neg, Int.neg_tdiv, neg_neg, htd]
/-- Witness for C6 at `a = -7`, `b = 2` (the `div(-7, 2) = -3` scenario of the
spec), plus the other three sign examples. -/
theorem euclidean_div_rem_spec_witness :
    ((DefaultBigIntRingEl.mk false 2).mag ≠ 0) ∧
    ((euclidean_div_rem ⟨true, 7⟩ ⟨false, 2⟩).1.val * (DefaultBigIntRingEl.val ⟨false, 2⟩) +
        (euclidean_div_rem ⟨true, 7⟩ ⟨false, 2⟩).2.val = DefaultBigIntRingEl.val ⟨true, 7⟩ ∧
      (euclidean_div_rem ⟨true, 7⟩ ⟨false, 2⟩).2.val.natAbs <
        (DefaultBigIntRingEl.val ⟨false, 2⟩).natAbs ∧
      (euclidean_div_rem ⟨true, 7⟩ ⟨false, 2⟩).1.val =
        (DefaultBigIntRingEl.val ⟨true, 7⟩).tdiv (DefaultBigIntRingEl.val ⟨false, 2⟩) ∧
      (euclidean_div_rem ⟨true, 7⟩ ⟨false, 2⟩).1.mag = (DefaultBigIntRingEl.mk true 7).mag / 2 ∧
      (euclidean_div_rem ⟨true, 7⟩ ⟨false, 2⟩).1.sign = xor true false ∧
      (euclidean_div_rem ⟨true, 7⟩ ⟨false, 2⟩).2.sign = true) ∧
    (euclidean_div_rem ⟨true, 7⟩ ⟨false, 2⟩).1.val = -3 ∧
    (euclidean_div_rem ⟨false, 7⟩ ⟨false, 2⟩).1.val = 3 ∧
    (euclidean_div_rem ⟨false, 7⟩ ⟨true, 2⟩).1.val = -3 ∧
    (euclidean_div_rem ⟨true, 7⟩ ⟨true, 2⟩).1.val = 3 :=
  ⟨by decide, euclidean_div_rem_spec ⟨true, 7⟩ ⟨false, 2⟩ (by decide),
    by decide, by decide, by decide, by decide⟩

/-! ## C7: `IntegerRing::rounded_div` (`integer.rs` lines 144-152) -/

/-- The default `rounded_div` of `integer.rs`: half of `|rhs|` is computed by
`euclidean_div_pow_2` (truncating division by `2`), added toward the sign of
the dividend, and the result is divided by the Euclidean (toward-zero)
division of the ring, `Int.tdiv`. -/
def rounded_div (lhs rhs : ℤ) : ℤ :=
  if lhs < 0 then (lhs - (rhs.natAbs / 2 : ℕ)).tdiv rhs
  else (lhs + (rhs.natAbs / 2 : ℕ)).tdiv rhs

theorem tdiv_eq_zero_of_natAbs_lt {s b : ℤ} (hs : s.natAbs < b.natAbs) : s.tdiv b = 0 := by
  have h1 : (s.tdiv b).natAbs = s.natAbs / b.natAbs := Int.natAbs_tdiv s b
  have h2 : s.natAbs / b.natAbs = 0 := Nat.div_eq_of_lt hs
  exact Int.natAbs_eq_zero.mp (h1.trans h2)

theorem rounded_div_neg_left (a b : ℤ) : rounded_div (-a) b = -rounded_div a b := by
  rcases lt_trichotomy a 0 with h | rfl | h
  · rw [rounded_div, if_neg (by omega), rounded_div, if_pos h,
      show -a + ((b.natAbs / 2 : ℕ) : ℤ) = -(a - ((b.natAbs / 2 : ℕ) : ℤ)) by ring, Int.neg_tdiv]
  · have h0 : rounded_div 0 b = 0 := by
      rw [rounded_div, if_neg (by omega), zero_add]
      rcases eq_or_ne b 0 with rfl | hb
      · simp
      · refine tdiv_eq_zero_of_natAbs_lt ?_
        have : 0 < b.natAbs := Int.natAbs_pos.mpr hb
        simp only [Int.natAbs_ofNat]
        omega
    rw [neg_zero, h0, neg_zero]
  · rw [rounded_div, if_pos (by omega), rounded_div, if_neg (by omega),
      show -a - ((b.natAbs / 2 : ℕ) : ℤ) = -(a + ((b.natAbs / 2 : ℕ) : ℤ)) by ring, Int.neg_tdiv]

theorem rounded_div_neg_right (a b : ℤ) : rounded_div a (-b) = -rounded_div a b := by
  unfold rounded_div
  rw [Int.natAbs_neg]
  split <;> rw [Int.tdiv_neg]

/-- Core case of C7: `a ≥ 0`, `b > 0`. -/
theorem rounded_div_core (a b : ℤ) (ha : 0 ≤ a) (hb : 0 < b) :
    2 * |a - b * rounded_div a b| ≤ |b| ∧
    (2 * |a - b * rounded_div a b| = |b| → |a| < |b * rounded_div a b|) := by
  have hh : ((b.natAbs / 2 : ℕ) : ℤ) = b / 2 := by omega
  have hq : rounded_div a b = (a + b / 2) / b := by
    rw [rounded_div, if_neg (by omega), hh, Int.tdiv_eq_ediv (by omega) hb.le]
  rw [hq]
  obtain ⟨D, hD⟩ : ∃ D, (a + b / 2) / b = D := ⟨_, rfl⟩
  have hDm : b * D + (a + b / 2) % b = a + b / 2 := by
    rw [← hD]; exact Int.ediv_add_emod _ _
  obtain ⟨E, hE⟩ : ∃ E, (a + b / 2) % b = E := ⟨_, rfl⟩
  rw [hE] at hDm
  have hE0 : 0 ≤ E := hE ▸ Int.emod_nonneg _ hb.ne'
  have hEb : E < b := hE ▸ Int.emod_lt_of_pos _ hb
  rw [hD]
  constructor
  · rcases abs_cases (a - b * D) with ⟨he, _⟩ | ⟨he, _⟩ <;> rw [he, abs_of_pos hb] <;> omega
  · intro htie
    rw [abs_of_pos hb] at htie
    rcases abs_cases (a - b * D) with ⟨he, _⟩ | ⟨he, _⟩ <;> rw [he] at htie
    · omega
    · have hbD0 : 0 < b * D := by omega
      rw [abs_of_nonneg ha, abs_of_nonneg hbD0.le]
      omega

/-- C7: for `b ≠ 0`, `rounded_div a b` is a closest integer quotient: the
residual `a - b·q` is at most half of `|b|` in absolute value, no other
integer multiple of `b` is closer to `a`, and in case of a tie (residual
exactly `|b|/2`) the result rounds away from zero (`|b·q| > |a|`). -/
theorem rounded_div_spec (a b : ℤ) (hb : b ≠ 0) :
    2 * |a - b * rounded_div a b| ≤ |b| ∧
    (∀ k : ℤ, |a - b * rounded_div a b| ≤ |a - b * k|) ∧
    (2 * |a - b * rounded_div a b| = |b| → |a| < |b * rounded_div a b|) := by
  have main : 2 * |a - b * rounded_div a b| ≤ |b| ∧
      (2 * |a - b * rounded_div a b| = |b| → |a| < |b * rounded_div a b|) := by
    rcases le_or_lt 0 a with ha | ha <;> rcases lt_or_gt_of_ne hb with hbn | hbp
    · have hcore := rounded_div_core a (-b) ha (by omega)
      rw [rounded_div_neg_right] at hcore
      have habs1 : |a - (-b) * -rounded_div a b| = |a - b * rounded_div a b| := by ring_nf
      have habs2 : |(-b) * -rounded_div a b| = |b * rounded_div a b| := by ring_nf
      rw [habs1, habs2, abs_neg] at hcore
      exact hcore
    · exact rounded_div_core a b ha hbp
    · have hcore := rounded_div_core (-a) (-b) (by omega) (by omega)
      rw [rounded_div_neg_left, rounded_div_neg_right, neg_neg] at hcore
      have habs1 : |(-a) - (-b) * rounded_div a b| = |a - b * rounded_div a b| := by
        rw [show (-a) - (-b) * rounded_div a b = -(a - b * rounded_div a b) by ring, abs_neg]
      have habs2 : |(-b) * rounded_div a b| = |b * rounded_div a b| := by
        rw [show (-b) * rounded_div a b = -(b * rounded_div a b) by ring, abs_neg]
      rw [habs1, habs2, abs_neg, abs_neg] at hcore
      exact hcore
    · have hcore := rounded_div_core (-a) b (by omega) hbp
      rw [rounded_div_neg_left] at hcore
      have habs1 : |(-a) - b * -rounded_div a b| = |a - b * rounded_div a b| := by
        rw [show (-a) - b * -rounded_div a b = -(a - b * rounded_div a b) by ring, abs_neg]
      have habs2 : |b * -rounded_div a b| = |b * rounded_div a b| := by
        rw [show b * -rounded_div a b = -(b * rounded_div a b) by ring, abs_neg]
      rw [habs1, habs2, abs_neg] at hcore
      exact hcore
  refine ⟨main.1, ?_, main.2⟩
  intro k
  rcases eq_or_ne k (rounded_div a b) with rfl | hk
  · exact le_rfl
  · have h1 : |b| ≤ |b * (k - rounded_div a b)| := by
      rw [abs_mul]
      have h2 : 1 ≤ |k - rounded_div a b| := by
        rcases abs_cases (k - rounded_div a b) with ⟨he, _⟩ | ⟨he, _⟩ <;> omega
      nlinarith [abs_nonneg b]
    have h2 : |b * (k - rounded_div a b)| ≤ |a - b * k| + |a - b * rounded_div a b| := by
      have h3 : b * (k - rounded_div a b) = (b * k - a) + (a - b * rounded_div a b) := by ring
      calc |b * (k - rounded_div a b)|
          = |(b * k - a) + (a - b * rounded_div a b)| := by rw [h3]
        _ ≤ |b * k - a| + |a - b * rounded_div a b| := abs_add _ _
        _ = |a - b * k| + |a - b * rounded_div a b| := by rw [abs_sub_comm]
    have := main.1
    omega

/-- Witness for C7 at `a = 7`, `b = 2`, together with the spec's tie examples
`rounded_div 7 2 = 4` and `rounded_div (-7) 2 = -4`. -/
theorem rounded_div_spec_witness :
    ((2 : ℤ) ≠ 0) ∧
    (2 * |(7:ℤ) - 2 * rounded_div 7 2| ≤ |(2:ℤ)| ∧
      (∀ k : ℤ, |(7:ℤ) - 2 * rounded_div 7 2| ≤ |7 - 2 * k|) ∧
      (2 * |(7:ℤ) - 2 * rounded_div 7 2| = |(2:ℤ)| → |(7:ℤ)| < |2 * rounded_div 7 2|)) ∧
    rounded_div 7 2 = 4 ∧ rounded_div (-7) 2 = -4 ∧
    rounded_div 7 (-2) = -4 ∧ rounded_div (-7) (-2) = 4 :=
  ⟨by decide, rounded_div_spec 7 2 (by decide), by decide, by decide, by decide, by decide⟩

/-! ## C2 / C10: the fast 64-bit `Z/nZ` ring (`rings/zn/zn_42.rs`) -/

namespace zn_42

/-- `BITSHIFT = 84` (`zn_42.rs` line 68). -/
def BITSHIFT : ℕ := 84

/-- `inv_modulus = (1 << BITSHIFT) / modulus` (`ZnBase::new`, line 89). -/
def inv_modulus (n : ℕ) : ℕ := 2 ^ BITSHIFT / n

/-- `u128::leading_zeros` of a value `< 2^128`. -/
def leading_zeros (x : ℕ) : ℕ := 128 - bitLen x

/-- `repr_bound` as computed by `ZnBase::new` (lines 90-91): the largest
multiple of `n` not exceeding `1 << (inv_modulus.leading_zeros() / 2)`. -/
def repr_bound (n : ℕ) : ℕ :=
  2 ^ (leading_zeros (inv_modulus n) / 2) - 2 ^ (leading_zeros (inv_modulus n) / 2) % n

/-- The assertions checked by `ZnBase::new` (`zn_42.rs` lines 88-100); after a
successful construction these all hold. -/
structure NewAsserts (n : ℕ) : Prop where
  one_lt : 1 < n
  two_n_le : 2 * n ≤ repr_bound n
  sq_lt : repr_bound n * repr_bound n < 2 ^ BITSHIFT
  pow16_le : 2 ^ 16 ≤ repr_bound n
  mod_eq : repr_bound n % n = 0

/-- `ZnBase::bounded_reduce` (lines 118-125):
`u - ((u * inv_modulus) >> BITSHIFT) * n` on `u128`. -/
def bounded_reduce (n u : ℕ) : ℕ := u - u * inv_modulus n / 2 ^ BITSHIFT * n

/-- `ZnBase::potential_reduce` (lines 108-112). -/
def potential_reduce (n x : ℕ) : ℕ :=
  if repr_bound n < x then bounded_reduce n x else x

/-- `RingBase::add_assign` (lines 161-167). -/
def add_assign (n x y : ℕ) : ℕ := potential_reduce n (x + y)

/-- `RingBase::negate_inplace` (lines 169-173): `repr_bound - x`. -/
def negate (n x : ℕ) : ℕ := repr_bound n - x

/-- `RingBase::mul_assign` (lines 175-180). -/
def mul_assign (n x y : ℕ) : ℕ := bounded_reduce n (x * y)

/-- `ZnBase::complete_reduce` (lines 127-134). -/
def complete_reduce (n u : ℕ) : ℕ :=
  if n ≤ bounded_reduce n u then bounded_reduce n u - n else bounded_reduce n u

/-- `RingBase::is_zero` (lines 198-201). -/
def is_zero (n x : ℕ) : Bool := complete_reduce n x == 0

/-- `RingBase::is_neg_one` (lines 203-206): `x == repr_bound || is_zero (x + 1)`. -/
def is_neg_one (n x : ℕ) : Bool := (x == repr_bound n) || is_zero n (x + 1)

/-- `RingBase::eq_el` (lines 186-192). -/
def eq_el (n x y : ℕ) : Bool := if y ≤ x then is_zero n (x - y) else is_zero n (y - x)

/-- `CanHomFrom<StaticRingBase<i32>>::map_in` (`I32ToZnHom`, lines 342-376):
`from_int` routes `i32` literals through this map.  The fast path is taken
when `repr_bound > i32::MAX`. -/
def map_in_i32 (n : ℕ) (v : ℤ) : ℕ :=
  if (2 ^ 31 - 1 : ℕ) < repr_bound n then
    if v < 0 then negate n v.natAbs else v.natAbs
  else
    if v < 0 then negate n (bounded_reduce n v.natAbs) else bounded_reduce n v.natAbs

/-- Split a list into the chunks consumed per outer iteration of
`RingBase::sum` (lines 222-235): one starting element plus up to `b`
following elements (the code takes `repr_bound - 1` extra elements). -/
def chunked (b : ℕ) : List ℕ → List (List ℕ)
  | [] => []
  | x :: xs => (x :: xs.take b) :: chunked b (xs.drop b)
  termination_by l => l.length
  decreasing_by simp [List.length_drop]; omega

/-- `RingBase::sum` (lines 222-235): accumulate each chunk without reduction
(`u128` cannot overflow by the `repr_bound²` invariant), `bounded_reduce` it,
and `add_assign` it onto the running result. -/
def sum (n : ℕ) (l : List ℕ) : ℕ :=
  (chunked (repr_bound n - 1) l).foldl
    (fun acc c => add_assign n acc (bounded_reduce n (c.foldr (· + ·) 0))) 0

theorem bounded_reduce_sub_le {n u : ℕ} :
    u * inv_modulus n / 2 ^ BITSHIFT * n ≤ u := by
  have hB : (0:ℕ) < 2 ^ BITSHIFT := by positivity
  have h1 : u * inv_modulus n / 2 ^ BITSHIFT * n * 2 ^ BITSHIFT ≤ u * inv_modulus n * n := by
    calc u * inv_modulus n / 2 ^ BITSHIFT * n * 2 ^ BITSHIFT
        = u * inv_modulus n / 2 ^ BITSHIFT * 2 ^ BITSHIFT * n := by ring
      _ ≤ u * inv_modulus n * n := Nat.mul_le_mul_right _ (Nat.div_mul_le_self _ _)
  have h2 : u * inv_modulus n * n ≤ u * 2 ^ BITSHIFT := by
    calc u * inv_modulus n * n = u * (inv_modulus n * n) := by ring
      _ ≤ u * 2 ^ BITSHIFT := Nat.mul_le_mul_left _ (Nat.div_mul_le_self _ _)
  exact Nat.le_of_mul_le_mul_right (le_trans h1 h2) hB

/-- Core property of `bounded_reduce`: on inputs up to `repr_bound²` the
result is congruent to the input mod `n` and strictly below `2n`. -/
theorem bounded_reduce_spec {n : ℕ} (hA : NewAsserts n) {u : ℕ}
    (hu : u ≤ repr_bound n * repr_bound n) :
    bounded_reduce n u % n = u % n ∧ bounded_reduce n u < 2 * n := by
  have hn : 0 < n := by have := hA.one_lt; omega
  have hB : (0:ℕ) < 2 ^ BITSHIFT := by positivity
  have huB : u < 2 ^ BITSHIFT := lt_of_le_of_lt hu hA.sq_lt
  have hqn := bounded_reduce_sub_le (n := n) (u := u)
  constructor
  · rw [bounded_reduce]
    conv_rhs => rw [show u = (u - u * inv_modulus n / 2 ^ BITSHIFT * n)
      + u * inv_modulus n / 2 ^ BITSHIFT * n by omega]
    rw [Nat.add_mul_mod_self_right]
  · rcases Nat.eq_zero_or_pos u with rfl | hu0
    · have : bounded_reduce n 0 = 0 := by simp [bounded_reduce]
      rw [this]; omega
    · have h1 : u * inv_modulus n < (u * inv_modulus n / 2 ^ BITSHIFT + 1) * 2 ^ BITSHIFT := by
        have he := Nat.div_add_mod (u * inv_modulus n) (2 ^ BITSHIFT)
        have hm := Nat.mod_lt (u * inv_modulus n) hB
        calc u * inv_modulus n
            = 2 ^ BITSHIFT * (u * inv_modulus n / 2 ^ BITSHIFT)
              + u * inv_modulus n % 2 ^ BITSHIFT := he.symm
          _ < 2 ^ BITSHIFT * (u * inv_modulus n / 2 ^ BITSHIFT) + 2 ^ BITSHIFT :=
              Nat.add_lt_add_left hm _
          _ = (u * inv_modulus n / 2 ^ BITSHIFT + 1) * 2 ^ BITSHIFT := by ring
      have h2 : 2 ^ BITSHIFT < n * (inv_modulus n + 1) := by
        have he := Nat.div_add_mod (2 ^ BITSHIFT) n
        have hm := Nat.mod_lt (2 ^ BITSHIFT) hn
        calc 2 ^ BITSHIFT = n * inv_modulus n + 2 ^ BITSHIFT % n := by
              rw [inv_modulus]; omega
          _ < n * inv_modulus n + n := Nat.add_lt_add_left hm _
          _ = n * (inv_modulus n + 1) := by ring
      have key : u * 2 ^ BITSHIFT
          < (u * inv_modulus n / 2 ^ BITSHIFT + 2) * n * 2 ^ BITSHIFT := by
        calc u * 2 ^ BITSHIFT < u * (n * (inv_modulus n + 1)) :=
              mul_lt_mul_of_pos_left h2 hu0
          _ = u * inv_modulus n * n + u * n := by ring
          _ < (u * inv_modulus n / 2 ^ BITSHIFT + 1) * 2 ^ BITSHIFT * n + u * n :=
              Nat.add_lt_add_right (mul_lt_mul_of_pos_right h1 hn) _
          _ ≤ (u * inv_modulus n / 2 ^ BITSHIFT + 1) * 2 ^ BITSHIFT * n
              + 2 ^ BITSHIFT * n := Nat.add_le_add_left
                (Nat.mul_le_mul_right _ huB.le) _
          _ = (u * inv_modulus n / 2 ^ BITSHIFT + 2) * n * 2 ^ BITSHIFT := by ring
      have hfin : u < (u * inv_modulus n / 2 ^ BITSHIFT + 2) * n :=
        lt_of_mul_lt_mul_right key (Nat.zero_le _)
      rw [bounded_reduce, tsub_lt_iff_right hqn]
      calc u < (u * inv_modulus n / 2 ^ BITSHIFT + 2) * n := hfin
        _ = 2 * n + u * inv_modulus n / 2 ^ BITSHIFT * n := by ring

theorem bounded_reduce_le_repr_bound {n : ℕ} (hA : NewAsserts n) {u : ℕ}
    (hu : u ≤ repr_bound n * repr_bound n) : bounded_reduce n u ≤ repr_bound n :=
  le_trans (bounded_reduce_spec hA hu).2.le hA.two_n_le

theorem add_assign_le {n : ℕ} (hA : NewAsserts n) {x y : ℕ}
    (hx : x ≤ repr_bound n) (hy : y ≤ repr_bound n) : add_assign n x y ≤ repr_bound n := by
  rw [add_assign, potential_reduce]
  split
  · refine bounded_reduce_le_repr_bound hA ?_
    have h2 : 2 ≤ repr_bound n := le_trans (by norm_num) hA.pow16_le
    calc x + y ≤ 2 * repr_bound n := by omega
      _ ≤ repr_bound n * repr_bound n := Nat.mul_le_mul_right _ h2
  · omega

theorem chunked_chunk_bound (b : ℕ) :
    ∀ l : List ℕ, ∀ c ∈ chunked b l, c.length ≤ b + 1 ∧ ∀ x ∈ c, x ∈ l
  | [] => by simp [chunked]
  | x :: xs => by
    intro c hc
    rw [chunked] at hc
    rcases List.mem_cons.mp hc with rfl | hc
    · constructor
      · simp only [List.length_cons]
        have := List.length_take_le b xs
        omega
      · intro y hy
        rcases List.mem_cons.mp hy with rfl | hy
        · exact List.mem_cons_self _ _
        · exact List.mem_cons_of_mem _ (List.take_subset _ _ hy)
    · obtain ⟨h1, h2⟩ := chunked_chunk_bound b (xs.drop b) c hc
      exact ⟨h1, fun y hy => List.mem_cons_of_mem _ (List.drop_subset _ _ (h2 y hy))⟩
  termination_by l => l.length
  decreasing_by simp [List.length_drop]; omega

theorem list_sum_le {B : ℕ} : ∀ (c : List ℕ), (∀ x ∈ c, x ≤ B) →
    c.foldr (· + ·) 0 ≤ c.length * B
  | [], _ => by simp
  | x :: xs, h => by
    simp only [List.foldr_cons, List.length_cons]
    have h1 : x ≤ B := h x (List.mem_cons_self _ _)
    have h2 := list_sum_le xs (fun y hy => h y (List.mem_cons_of_mem _ hy))
    calc x + xs.foldr (· + ·) 0 ≤ B + xs.length * B := Nat.add_le_add h1 h2
      _ = (xs.length + 1) * B := by ring

theorem sum_le {n : ℕ} (hA : NewAsserts n) {l : List ℕ}
    (hl : ∀ x ∈ l, x ≤ repr_bound n) : sum n l ≤ repr_bound n := by
  rw [sum]
  have hB1 : 1 ≤ repr_bound n := le_trans (by norm_num) hA.pow16_le
  have hgen : ∀ cs : List (List ℕ), (∀ c ∈ cs, c.length ≤ repr_bound n - 1 + 1 ∧
      ∀ x ∈ c, x ≤ repr_bound n) → ∀ acc, acc ≤ repr_bound n →
      cs.foldl (fun acc c => add_assign n acc (bounded_reduce n (c.foldr (· + ·) 0))) acc
        ≤ repr_bound n := by
    intro cs
    induction cs with
    | nil => intro _ acc hacc; simpa using hacc
    | cons c cs ih =>
      intro h acc hacc
      simp only [List.foldl_cons]
      refine ih (fun d hd => h d (List.mem_cons_of_mem _ hd)) _ ?_
      obtain ⟨hlen, hmem⟩ := h c (List.mem_cons_self _ _)
      have hcs : c.foldr (· + ·) 0 ≤ repr_bound n * repr_bound n := by
        calc c.foldr (· + ·) 0 ≤ c.length * repr_bound n := list_sum_le c hmem
          _ ≤ (repr_bound n - 1 + 1) * repr_bound n := Nat.mul_le_mul_right _ hlen
          _ = repr_bound n * repr_bound n := by rw [Nat.sub_add_cancel hB1]
      exact add_assign_le hA hacc (bounded_reduce_le_repr_bound hA hcs)
  refine hgen _ ?_ 0 (Nat.zero_le _)
  intro c hc
  obtain ⟨h1, h2⟩ := chunked_chunk_bound _ l c hc
  exact ⟨h1, fun x hx => hl x (h2 x hx)⟩

theorem map_in_i32_le {n : ℕ} (hA : NewAsserts n) {v : ℤ}
    (hv : v.natAbs ≤ 2 ^ 31) : map_in_i32 n v ≤ repr_bound n := by
  rw [map_in_i32]
  have hneg : ∀ x, negate n x ≤ repr_bound n := fun x => Nat.sub_le _ _
  split
  · split
    · exact hneg _
    · omega
  · have habs : v.natAbs ≤ repr_bound n * repr_bound n := by
      have h16 := hA.pow16_le
      calc v.natAbs ≤ 2 ^ 31 := hv
        _ ≤ 2 ^ 16 * 2 ^ 16 := by norm_num
        _ ≤ repr_bound n * repr_bound n := Nat.mul_le_mul h16 h16
    split
    · exact hneg _
    · exact bounded_reduce_le_repr_bound hA habs

/-- C2: in the fast 64-bit `Z/nZ` ring, every operation — `add_assign`,
`negate`, `mul_assign`, `sum`, and `from_int` (via the `i32` map) — sends
representatives in `[0, repr_bound]` back into `[0, repr_bound]`, and for
every `u ≤ repr_bound²` the value `bounded_reduce u = u - ⌊u·inv_modulus/2^84⌋·n`
is congruent to `u` modulo `n` and strictly less than `2n`.  The hypotheses
are exactly the assertions of `ZnBase::new`. -/
theorem zn42_invariants (n : ℕ) (hA : NewAsserts n) :
    (∀ x y, x ≤ repr_bound n → y ≤ repr_bound n → add_assign n x y ≤ repr_bound n) ∧
    (∀ x, x ≤ repr_bound n → negate n x ≤ repr_bound n) ∧
    (∀ x y, x ≤ repr_bound n → y ≤ repr_bound n → mul_assign n x y ≤ repr_bound n) ∧
    (∀ l : List ℕ, (∀ x ∈ l, x ≤ repr_bound n) → sum n l ≤ repr_bound n) ∧
    (∀ v : ℤ, v.natAbs ≤ 2 ^ 31 → map_in_i32 n v ≤ repr_bound n) ∧
    (∀ u, u ≤ repr_bound n * repr_bound n →
      bounded_reduce n u = u - u * inv_modulus n / 2 ^ BITSHIFT * n ∧
      bounded_reduce n u % n = u % n ∧ bounded_reduce n u < 2 * n) := by
  refine ⟨fun x y hx hy => add_assign_le hA hx hy,
    fun x _ => Nat.sub_le _ _,
    fun x y hx hy => ?_,
    fun l hl => sum_le hA hl,
    fun v hv => map_in_i32_le hA hv,
    fun u hu => ⟨rfl, (bounded_reduce_spec hA hu).1, (bounded_reduce_spec hA hu).2⟩⟩
  exact bounded_reduce_le_repr_bound hA (Nat.mul_le_mul hx hy)

/-- Witness for C2 at `n = 7` (where `repr_bound 7 = 8388604`): the
constructor assertions hold and the invariants apply, e.g. to
`add_assign`, `sum` and a concrete `bounded_reduce` input. -/
theorem zn42_invariants_witness :
    (NewAsserts 7) ∧
    add_assign 7 8388604 8388604 ≤ repr_bound 7 ∧
    sum 7 [1, 2, 3] ≤ repr_bound 7 ∧
    (bounded_reduce 7 (8388604 * 8388604) % 7 = (8388604 * 8388604) % 7 ∧
      bounded_reduce 7 (8388604 * 8388604) < 2 * 7) := by
  have hA : NewAsserts 7 := ⟨by decide, by decide, by decide, by decide, by decide⟩
  have hB : repr_bound 7 = 8388604 := by decide
  refine ⟨hA, ?_, ?_, ?_⟩
  · exact (zn42_invariants 7 hA).1 _ _ (by rw [hB]) (by rw [hB])
  · exact (zn42_invariants 7 hA).2.2.2.1 _ (by decide)
  · have h := (zn42_invariants 7 hA).2.2.2.2.2 (8388604 * 8388604) (by rw [hB])
    exact ⟨h.2.1, h.2.2⟩

/-- C10 (code bug): `is_neg_one` returns `true` on the representative
`repr_bound n` — which is exactly what `negate(zero)` produces — even though
`repr_bound n` is a multiple of `n` and therefore represents `0`, not `-1`.
Evaluated at `n = 7`: `negate 7 0 = repr_bound 7 = 8388604`, a multiple of
`7`, yet `is_neg_one` answers `true` while the ring equality with the real
`-1` (representative congruent to `6` mod `7`) fails. -/
theorem is_neg_one_repr_bound_bug :
    is_neg_one 7 (negate 7 0) = true ∧
    negate 7 0 = repr_bound 7 ∧
    repr_bound 7 % 7 = 0 ∧
    ¬ (repr_bound 7 + 1) % 7 = 0 ∧
    eq_el 7 (negate 7 0) (negate 7 1) = false := by decide

end zn_42

/-! ## C9: generic integer-to-`Z/nZ` reduction (`rings/zn/mod.rs` lines 121-209) -/

namespace zn_generic

/-- `abs_highest_set_bit` of `|x|` as used by the generic map: the index of
the highest set bit; the element side uses `unwrap_or(0)`, matched here by
`bitLen 0 - 1 = 0`. -/
def abs_highest_set_bit (x : ℕ) : ℕ := bitLen x - 1

/-- `generic_impls::IntegerToZnHom` (`rings/zn/mod.rs` lines 121-131): the
precomputed bit positions of the modulus and of the bounded-reduce bound. -/
structure IntegerToZnHom where
  highbit_mod : ℕ
  highbit_bound : ℕ

/-- `generic_impls::has_canonical_hom_from_int` (lines 137-161): `highbit_mod`
is the highest set bit of the modulus; `highbit_bound` is that of the bound
when one is supplied and `usize::MAX` otherwise. -/
def has_canonical_hom_from_int (n : ℕ) (bound : Option ℕ) : IntegerToZnHom :=
  { highbit_mod := abs_highest_set_bit n,
    highbit_bound := match bound with
      | some b => abs_highest_set_bit b
      | none => 2 ^ 64 - 1 }

/-- The branch chosen by `generic_impls::map_in_from_int` (lines 197-203):
`0` = direct lift trusting `x < n`, `1` = bounded reduce, `2` = generic
modular reduction in the source integer ring. -/
def map_in_branch (hom : IntegerToZnHom) (x : ℤ) : ℕ :=
  if abs_highest_set_bit x.natAbs < hom.highbit_mod then 0
  else if abs_highest_set_bit x.natAbs < hom.highbit_bound then 1
  else 2

/-- `generic_impls::map_in_from_int` (lines 184-209), with the ring-supplied
primitives abstracted: `F` is `from_positive_representative_exact`
(documented contract `{0, …, n−1} → Z/nZ`), `G` is
`from_positive_representative_bounded` (contract `{0, …, B} → Z/nZ`) and
`neg` is the codomain's negation, applied at the end for negative input. -/
def map_in_from_int (n : ℕ) (hom : IntegerToZnHom) (F G neg : ℕ → ℕ) (x : ℤ) : ℕ :=
  let reduced :=
    if abs_highest_set_bit x.natAbs < hom.highbit_mod then F x.natAbs
    else if abs_highest_set_bit x.natAbs < hom.highbit_bound then G x.natAbs
    else F (x.natAbs % n)
  if x < 0 then neg reduced else reduced

theorem bitLen_mono {a b : ℕ} (h : a ≤ b) : bitLen a ≤ bitLen b := by
  rw [bitLen_eq_size, bitLen_eq_size]
  exact Nat.size_le_size h

theorem bitLen_two_mul {n : ℕ} (hn : 0 < n) : bitLen (2 * n) = bitLen n + 1 := by
  rw [bitLen_eq_size, bitLen_eq_size]
  have hb : (2 * n) = Nat.bit false n := by simp [Nat.bit]
  rw [hb, Nat.size_bit]
  simp [Nat.bit]
  omega

/-- C9 (amended): when `|x|` and `n` have the same bit length but `|x| > n`,
the first branch of `map_in_from_int` is skipped; the branch then taken is
the *second* (bounded-reduce) one precisely when the bit position of `|x|`
is below that of the bound — in particular always when `B ≥ 2n` — and the
third (reduce in the source ring) one otherwise; and in every branch the
mapped result represents `x` mod `n`. -/
theorem map_in_from_int_spec (n B : ℕ) (x : ℤ) (F G neg : ℕ → ℕ)
    (hn : 2 ≤ n) (hB : 1 ≤ B)
    (hF : ∀ y, y < n → (F y : ℤ) ≡ (y : ℤ) [ZMOD (n : ℤ)])
    (hG : ∀ y, y ≤ B → (G y : ℤ) ≡ (y : ℤ) [ZMOD (n : ℤ)])
    (hneg : ∀ y, (neg y : ℤ) ≡ -(y : ℤ) [ZMOD (n : ℤ)]) :
    (bitLen x.natAbs = bitLen n → n < x.natAbs →
      map_in_branch (has_canonical_hom_from_int n (some B)) x ≠ 0) ∧
    (bitLen x.natAbs = bitLen n → n < x.natAbs →
      map_in_branch (has_canonical_hom_from_int n (some B)) x =
        if abs_highest_set_bit x.natAbs < abs_highest_set_bit B then 1 else 2) ∧
    (bitLen x.natAbs = bitLen n → 2 * n ≤ B →
      map_in_branch (has_canonical_hom_from_int n (some B)) x = 1) ∧
    ((map_in_from_int n (has_canonical_hom_from_int n (some B)) F G neg x : ℤ)
      ≡ x [ZMOD (n : ℤ)]) := by
  have hnbl : 2 ≤ bitLen n := by
    have h2 : bitLen 2 ≤ bitLen n := bitLen_mono hn
    have h3 : bitLen 2 = 2 := by decide
    omega
  refine ⟨?_, ?_, ?_, ?_⟩
  · intro heq _
    simp only [map_in_branch, has_canonical_hom_from_int, abs_highest_set_bit, heq]
    rw [if_neg (by omega)]
    split <;> omega
  · intro heq _
    simp only [map_in_branch, has_canonical_hom_from_int, abs_highest_set_bit, heq]
    rw [if_neg (by omega)]
  · intro heq h2n
    have hbl : bitLen n + 1 ≤ bitLen B := by
      calc bitLen n + 1 = bitLen (2 * n) := (bitLen_two_mul (by omega)).symm
        _ ≤ bitLen B := bitLen_mono h2n
    simp only [map_in_branch, has_canonical_hom_from_int, abs_highest_set_bit, heq]
    rw [if_neg (by omega), if_pos (by omega)]
  · rw [map_in_from_int]
    have hmain : ∀ red : ℕ,
        ((red : ℤ) ≡ (x.natAbs : ℤ) [ZMOD (n : ℤ)]) →
        ((if x < 0 then neg red else red : ℕ) : ℤ) ≡ x [ZMOD (n : ℤ)] := by
      intro red hred
      split
      · calc ((neg red : ℕ) : ℤ) ≡ -(red : ℤ) [ZMOD (n : ℤ)] := hneg red
          _ ≡ -((x.natAbs : ℕ) : ℤ) [ZMOD (n : ℤ)] := Int.ModEq.neg hred
          _ = x := by omega
      · calc ((red : ℕ) : ℤ) ≡ ((x.natAbs : ℕ) : ℤ) [ZMOD (n : ℤ)] := hred
          _ = x := by omega
    refine hmain _ ?_
    simp only [has_canonical_hom_from_int, abs_highest_set_bit]
    split
    · refine hF _ ?_
      rcases Nat.eq_zero_or_pos x.natAbs with h0 | hpos
      · omega
      · have h1 : bitLen x.natAbs ≤ bitLen n - 1 := by omega
        calc x.natAbs < 2 ^ bitLen x.natAbs := lt_two_pow_bitLen _
          _ ≤ 2 ^ (bitLen n - 1) := Nat.pow_le_pow_right (by norm_num) h1
          _ ≤ n := two_pow_bitLen_le (by omega)
    · split
      · refine hG _ ?_
        rcases Nat.eq_zero_or_pos x.natAbs with h0 | hpos
        · omega
        · have hBbl : 1 ≤ bitLen B := by
            have h2 : bitLen 1 ≤ bitLen B := bitLen_mono hB
            have h3 : bitLen 1 = 1 := by decide
            omega
          have h1 : bitLen x.natAbs ≤ bitLen B - 1 := by omega
          refine le_of_lt ?_
          calc x.natAbs < 2 ^ bitLen x.natAbs := lt_two_pow_bitLen _
            _ ≤ 2 ^ (bitLen B - 1) := Nat.pow_le_pow_right (by norm_num) h1
            _ ≤ B := two_pow_bitLen_le (by omega)
      · have hmod : x.natAbs % n < n := Nat.mod_lt _ (by omega)
        calc ((F (x.natAbs % n) : ℕ) : ℤ)
            ≡ ((x.natAbs % n : ℕ) : ℤ) [ZMOD (n : ℤ)] := hF _ hmod
          _ ≡ (x.natAbs : ℤ) [ZMOD (n : ℤ)] := by
              have : ((x.natAbs % n : ℕ) : ℤ) = (x.natAbs : ℤ) % (n : ℤ) := by push_cast; rfl
              rw [Int.ModEq, this, Int.emod_emod_of_dvd _ dvd_rfl]

/-- C9 counterexample to the claim as stated: for the fast 64-bit ring with
modulus `n = 6` and bounded-reduce bound `repr_bound 6 ^ 2` (`zn_42.rs` line
288), the input `x = 7` has the same bit length as `6` and exceeds `6`, yet
`map_in_from_int` takes the *second* (bounded-reduce) branch — not the third
path through a source-ring reduction. -/
theorem map_in_from_int_branch_counterexample :
    bitLen ((7 : ℤ)).natAbs = bitLen 6 ∧ 6 < ((7 : ℤ)).natAbs ∧
    map_in_branch (has_canonical_hom_from_int 6
      (some (zn_42.repr_bound 6 * zn_42.repr_bound 6))) 7 = 1 ∧
    ¬ map_in_branch (has_canonical_hom_from_int 6
      (some (zn_42.repr_bound 6 * zn_42.repr_bound 6))) 7 = 2 := by decide

/-- Witness for C9 at `n = 6`, `B = 14`, `x = 7`, with `F`, `G`, `neg` the
mathematical reductions modulo `6`. -/
theorem map_in_from_int_spec_witness :
    ((2 ≤ 6 ∧ 1 ≤ 14) ∧
    ((bitLen ((7:ℤ)).natAbs = bitLen 6 → 6 < ((7:ℤ)).natAbs →
      map_in_branch (has_canonical_hom_from_int 6 (some 14)) 7 ≠ 0) ∧
    (bitLen ((7:ℤ)).natAbs = bitLen 6 → 6 < ((7:ℤ)).natAbs →
      map_in_branch (has_canonical_hom_from_int 6 (some 14)) 7 =
        if abs_highest_set_bit ((7:ℤ)).natAbs < abs_highest_set_bit 14 then 1 else 2) ∧
    (bitLen ((7:ℤ)).natAbs = bitLen 6 → 2 * 6 ≤ 14 →
      map_in_branch (has_canonical_hom_from_int 6 (some 14)) 7 = 1) ∧
    ((map_in_from_int 6 (has_canonical_hom_from_int 6 (some 14))
        (fun y => y % 6) (fun y => y % 6) (fun y => (6 - y % 6) % 6) 7 : ℤ)
      ≡ 7 [ZMOD (6 : ℤ)]))) := by
  refine ⟨⟨by omega, by omega⟩, ?_⟩
  refine map_in_from_int_spec 6 14 7 (fun y => y % 6) (fun y => y % 6)
    (fun y => (6 - y % 6) % 6) (by omega) (by omega) ?_ ?_ ?_
  · intro y hy
    show ((y % 6 : ℕ) : ℤ) ≡ (y : ℤ) [ZMOD (6 : ℤ)]
    rw [Nat.mod_eq_of_lt hy]
  · intro y _
    show ((y % 6 : ℕ) : ℤ) % 6 = (y : ℤ) % 6
    push_cast
    rw [Int.emod_emod_of_dvd _ dvd_rfl]
  · intro y
    show (((6 - y % 6) % 6 : ℕ) : ℤ) % 6 = (-(y : ℤ)) % 6
    have h1 : y % 6 < 6 := Nat.mod_lt _ (by omega)
    have h2 : ((y % 6 : ℕ) : ℤ) = (y : ℤ) % 6 := by push_cast; rfl
    omega

end zn_generic

/-! ## C8: `is_field` for the `Z/nZ` implementations -/

/-- Modelled from the spec: the default `ZnRing::is_field` (`rings/zn/mod.rs`
lines 86-88) calls `algorithms::miller_rabin::is_prime_base`, whose source is
not under `src/`; per the spec, "The ring is a field precisely when `n` is
prime". -/
def is_field_default (n : ℕ) : Bool := decide (Nat.Prime n)

/-- `zn_rns::ZnBase::is_field` (`rings/zn/zn_rns.rs` lines 582-584):
`self.components.len() == 1`, given the list of component moduli of the RNS
ring. -/
def is_field_rns (ms : List ℕ) : Bool := ms.length == 1

/-- The checks performed by `zn_rns::Zn::new` (`zn_rns.rs` lines 107-134):
at least one component, and for every component modulus `m` the coprimality
assertion `gcd(total_modulus / m, m) = 1`. -/
def zn_rns_new_ok (ms : List ℕ) : Bool :=
  !ms.isEmpty && ms.all fun m => Nat.gcd (ms.prod / m) m == 1

/-- C8 counterexample to the claim as stated: the RNS ring accepts the single
component modulus `4` (all constructor assertions pass), reports
`is_field() = true` since it has exactly one component, yet its modulus
`4` is not prime. -/
theorem is_field_rns_counterexample :
    zn_rns_new_ok [4] = true ∧ is_field_rns [4] = true ∧
    ¬ Nat.Prime (([4] : List ℕ).prod) := by decide

/-- C8 (amended): the default `is_field` of `ZnRing` is a primality test of
the modulus; the RNS override `is_field` returns `true` iff the ring has
exactly one component, which coincides with primality of the total modulus
whenever all component moduli are prime (as in `Zn::from_primes`). -/
theorem is_field_spec :
    (∀ n : ℕ, is_field_default n = true ↔ Nat.Prime n) ∧
    (∀ ms : List ℕ, ms ≠ [] → (∀ m ∈ ms, Nat.Prime m) →
      (is_field_rns ms = true ↔ Nat.Prime ms.prod)) := by
  constructor
  · intro n
    simp [is_field_default]
  · intro ms hne hprime
    match ms with
    | [m] =>
      simp only [is_field_rns, List.length_cons, List.length_nil, List.prod_cons,
        List.prod_nil, Nat.mul_one]
      exact ⟨fun _ => hprime m (List.mem_singleton_self m), fun _ => rfl⟩
    | m1 :: m2 :: rest =>
      have h1 : m1 ≠ 1 := (hprime m1 (by simp)).ne_one
      have h2 : (m2 :: rest).prod ≠ 1 := by
        have hm2 : 2 ≤ m2 := (hprime m2 (by simp)).two_le
        have hpos : 0 < rest.prod := by
          refine List.prod_pos ?_
          intro a ha
          exact (hprime a (by simp [ha])).pos
        simp only [List.prod_cons]
        intro hcon
        nlinarith
      constructor
      · intro hcon
        simp [is_field_rns] at hcon
      · intro hcon
        exfalso
        rw [List.prod_cons] at hcon
        exact Nat.not_prime_mul h1 h2 hcon

/-- Witness for C8 at the one-component prime list `[5]` and at `n = 7`. -/
theorem is_field_spec_witness :
    (is_field_default 7 = true ↔ Nat.Prime 7) ∧
    (([5] : List ℕ) ≠ [] ∧
      (is_field_rns [5] = true ↔ Nat.Prime (([5] : List ℕ)).prod)) :=
  ⟨is_field_spec.1 7, by decide, is_field_spec.2 [5] (by decide) (by decide)⟩

/-! ## C3: canonical isomorphisms between the `Z/nZ` implementations -/

namespace zn_barett

/-- Modelled from the spec: `zn_barett::ZnBase` (not under `src/`) keeps its
representative always in `[0, n)`; `project` performs the full reduction of an
integer into this range (§4.4: Barett reduction plus a final conditional
subtract, or a Euclidean `rem` for large inputs — mathematically `x mod n`). -/
def project (n : ℕ) (x : ℤ) : ℕ := (x % (n : ℤ)).toNat

/-- Modelled from the spec: ring multiplication of `zn_barett` representatives
(`project_leq_n_square` after the product — the product mod `n`). -/
def mul (n a b : ℕ) : ℕ := a * b % n

/-- Modelled from the spec: `pow_gen` by repeated squaring over `zn_barett`
representatives (the power mod `n`). -/
def pow (n a e : ℕ) : ℕ := a ^ e % n

/-- Modelled from the spec: `RingStore::sum` over `zn_barett` representatives
(left fold of the ring addition). -/
def sum (n : ℕ) (l : List ℕ) : ℕ := l.foldr (fun a acc => (a + acc) % n) 0

theorem sum_eq (n : ℕ) (l : List ℕ) : sum n l = l.sum % n := by
  induction l with
  | nil => simp [sum]
  | cons x xs ih =>
    simp only [sum, List.foldr_cons, List.sum_cons] at ih ⊢
    rw [ih, Nat.add_mod, Nat.mod_mod_of_dvd _ dvd_rfl, ← Nat.add_mod]

end zn_barett

namespace zn_42

/-- `CanHomFrom<zn_barett::ZnBase> for ZnBase::map_in` (`zn_42.rs` lines
252-254): `from_bounded(from.smallest_positive_lift(el))` — the Barett
representative is taken over unchanged. -/
def map_in_from_barett (x : ℕ) : ℕ := x

/-- `CanonicalIso<zn_barett::ZnBase> for ZnBase::map_out` (`zn_42.rs` lines
269-271): the representative (an `i64`) is mapped into `zn_barett` through
its canonical homomorphism from the integers, i.e. fully reduced mod `n`. -/
def map_out_to_barett (n x : ℕ) : ℕ := zn_barett.project n (x : ℤ)

theorem map_out_to_barett_eq (n x : ℕ) : map_out_to_barett n x = x % n := by
  rw [map_out_to_barett, zn_barett.project]
  have h : ((x : ℤ) % (n : ℤ)) = ((x % n : ℕ) : ℤ) := by push_cast; rfl
  rw [h, Int.toNat_natCast]

theorem is_zero_of_multiple {n : ℕ} (hA : NewAsserts n) {v : ℕ}
    (hv : v ≤ repr_bound n * repr_bound n) (hm : v % n = 0) : is_zero n v = true := by
  have h := bounded_reduce_spec hA hv
  have hn : 2 ≤ n := hA.one_lt
  have hbr : bounded_reduce n v % n = 0 := by rw [h.1, hm]
  have h2n := h.2
  rw [is_zero, complete_reduce]
  rcases Nat.lt_or_ge (bounded_reduce n v) n with hlt | hge
  · rw [if_neg (by omega)]
    rw [Nat.mod_eq_of_lt hlt] at hbr
    simp [hbr]
  · rw [if_pos hge]
    rw [Nat.mod_eq_sub_mod hge] at hbr
    have hlt2 : bounded_reduce n v - n < n := by omega
    rw [Nat.mod_eq_of_lt hlt2] at hbr
    simp [hbr]

end zn_42

namespace zn_rns

/-- `zn_rns::Zn::new` (`zn_rns.rs` lines 107-134): the unit vectors
`uᵢ = (total/mᵢ)^(mᵢ−1) mod total`, computed with `pow_gen` in the Barett
total ring from `checked_div(total_modulus, mᵢ)`. -/
def unit_vectors (ms : List ℕ) : List ℕ :=
  ms.map fun m => zn_barett.pow ms.prod (ms.prod / m) (m - 1)

/-- `CanHomFrom<zn_barett::ZnBase> for ZnBase::map_in` (`zn_rns.rs` lines
380-392): the smallest positive lift of the Barett element, reduced into each
component ring. -/
def map_in (ms : List ℕ) (x : ℕ) : List ℕ := ms.map fun m => x % m

/-- `CanonicalIso<zn_barett::ZnBase> for ZnBase::map_out` (`zn_rns.rs` lines
418-435): `Σᵢ liftᵢ · uᵢ` evaluated in the Barett total ring. -/
def map_out (ms : List ℕ) (xs : List ℕ) : ℕ :=
  zn_barett.sum ms.prod
    (List.zipWith (fun x u => zn_barett.mul ms.prod x u) xs (unit_vectors ms))

theorem zip_sum_zero {m : ℕ} : ∀ (xs us : List ℕ), (∀ u ∈ us, u % m = 0) →
    (List.zipWith (· * ·) xs us).sum % m = 0
  | [], us, _ => by simp
  | x :: xs, [], _ => by simp
  | x :: xs, u :: us, h => by
    simp only [List.zipWith_cons_cons, List.sum_cons]
    have h1 : u % m = 0 := h u (List.mem_cons_self _ _)
    have h2 := zip_sum_zero xs us (fun v hv => h v (List.mem_cons_of_mem _ hv))
    rw [Nat.add_mod, Nat.mul_mod, h1, h2]
    simp

/-- If the unit-vector column at one position is `≡ 1` and all others are
`≡ 0` mod `m`, the reconstruction sum is congruent to the entry at that
position. -/
theorem zip_sum_congr {m : ℕ} (xs1 xs2 us1 us2 : List ℕ) (x u : ℕ)
    (hlen : xs1.length = us1.length)
    (h1 : ∀ v ∈ us1, v % m = 0) (h2 : ∀ v ∈ us2, v % m = 0)
    (hu : u ≡ 1 [MOD m]) :
    (List.zipWith (· * ·) (xs1 ++ x :: xs2) (us1 ++ u :: us2)).sum ≡ x [MOD m] := by
  rw [List.zipWith_append (· * ·) xs1 (x :: xs2) us1 (u :: us2) hlen, List.sum_append,
    List.zipWith_cons_cons, List.sum_cons]
  have e1 : (List.zipWith (· * ·) xs1 us1).sum ≡ 0 [MOD m] := by
    have := zip_sum_zero xs1 us1 h1
    rwa [Nat.ModEq, Nat.zero_mod]
  have e2 : (List.zipWith (· * ·) xs2 us2).sum ≡ 0 [MOD m] := by
    have := zip_sum_zero xs2 us2 h2
    rwa [Nat.ModEq, Nat.zero_mod]
  calc (List.zipWith (· * ·) xs1 us1).sum + (x * u + (List.zipWith (· * ·) xs2 us2).sum)
      ≡ 0 + (x * u + 0) [MOD m] := (e1.add ((Nat.ModEq.refl _).add e2))
    _ = x * u := by ring
    _ ≡ x * 1 [MOD m] := Nat.ModEq.mul_left x hu
    _ = x := by ring

/-- The unit vector of a component is `≡ 1` modulo its own modulus, by
Fermat's little theorem — this is where primality of the component moduli is
needed. -/
theorem unit_one {m : ℕ} (pre post : List ℕ) (hm : Nat.Prime m)
    (hcop : ∀ v ∈ pre ++ post, Nat.Coprime v m) :
    zn_barett.pow (pre ++ m :: post).prod ((pre ++ m :: post).prod / m) (m - 1)
      ≡ 1 [MOD m] := by
  have hP : (pre ++ m :: post).prod = m * (pre ++ post).prod := by
    rw [List.prod_append, List.prod_cons, List.prod_append]
    ring
  have hdvd : m ∣ (pre ++ m :: post).prod := List.dvd_prod (by simp)
  have hquot : (pre ++ m :: post).prod / m = (pre ++ post).prod := by
    rw [hP, Nat.mul_div_cancel_left _ hm.pos]
  have hcp : Nat.Coprime ((pre ++ post).prod) m :=
    Nat.coprime_list_prod_left_iff.mpr hcop
  have hferm : (pre ++ post).prod ^ (m - 1) ≡ 1 [MOD m] := by
    have := Nat.ModEq.pow_totient hcp
    rwa [Nat.totient_prime hm] at this
  rw [zn_barett.pow, hquot]
  calc (pre ++ post).prod ^ (m - 1) % (pre ++ m :: post).prod
      ≡ (pre ++ post).prod ^ (m - 1) [MOD m] := by
        rw [Nat.ModEq, Nat.mod_mod_of_dvd _ hdvd]
    _ ≡ 1 [MOD m] := hferm

/-- The unit vector of any *other* component is `≡ 0` modulo `m`: the base
`total/v` retains the factor `m`. -/
theorem unit_zero {m : ℕ} (p1 p2 : List ℕ) (v : ℕ) (hv2 : 2 ≤ v)
    (hm : m ∈ p1 ++ p2) :
    zn_barett.pow (p1 ++ v :: p2).prod ((p1 ++ v :: p2).prod / v) (v - 1)
      ≡ 0 [MOD m] := by
  have hP : (p1 ++ v :: p2).prod = v * (p1 ++ p2).prod := by
    rw [List.prod_append, List.prod_cons, List.prod_append]
    ring
  have hquot : (p1 ++ v :: p2).prod / v = (p1 ++ p2).prod := by
    rw [hP, Nat.mul_div_cancel_left _ (by omega)]
  have hdvd : m ∣ (p1 ++ p2).prod := List.dvd_prod hm
  have hdvdP : m ∣ (p1 ++ v :: p2).prod := by
    rw [hP]; exact Dvd.dvd.mul_left hdvd v
  have hpow : m ∣ (p1 ++ p2).prod ^ (v - 1) := dvd_pow hdvd (by omega)
  rw [zn_barett.pow, hquot]
  calc (p1 ++ p2).prod ^ (v - 1) % (p1 ++ v :: p2).prod
      ≡ (p1 ++ p2).prod ^ (v - 1) [MOD m] := by
        rw [Nat.ModEq, Nat.mod_mod_of_dvd _ hdvdP]
    _ ≡ 0 [MOD m] := (Nat.modEq_zero_iff_dvd).mpr hpow

/-- Combine congruences modulo each member of a pairwise-coprime list into a
congruence modulo the product. -/
theorem modEq_prod_of_forall_mem {a b : ℕ} : ∀ (ms : List ℕ),
    ms.Pairwise Nat.Coprime → (∀ m ∈ ms, a ≡ b [MOD m]) → a ≡ b [MOD ms.prod]
  | [], _, _ => by simpa using Nat.modEq_one
  | m :: ms, hcop, hall => by
    rw [List.prod_cons]
    have h1 : a ≡ b [MOD m] := hall m (List.mem_cons_self _ _)
    have h2 : a ≡ b [MOD ms.prod] :=
      modEq_prod_of_forall_mem ms (List.pairwise_cons.mp hcop).2
        (fun x hx => hall x (List.mem_cons_of_mem _ hx))
    have hcp : Nat.Coprime m ms.prod :=
      Nat.coprime_list_prod_right_iff.mpr (List.pairwise_cons.mp hcop).1
    exact (Nat.modEq_and_modEq_iff_modEq_mul hcp).mp ⟨h1, h2⟩

theorem pairwise_coprime_decomp {pre post : List ℕ} {m : ℕ}
    (h : (pre ++ m :: post).Pairwise Nat.Coprime) :
    ∀ v ∈ pre ++ post, Nat.Coprime v m := by
  rw [List.pairwise_append] at h
  obtain ⟨_, h2, h3⟩ := h
  intro v hv
  rcases List.mem_append.mp hv with hv | hv
  · exact h3 v hv m (List.mem_cons_self _ _)
  · exact ((List.pairwise_cons.mp h2).1 v hv).symm

/-- The reconstruction sum (in raw form) is congruent, modulo the component
modulus at the distinguished position, to the entry at that position. -/
theorem raw_sum_congr {m : ℕ} (pre post xs1 xs2 : List ℕ) (x : ℕ)
    (hprime : ∀ v ∈ pre ++ m :: post, Nat.Prime v)
    (hcop : (pre ++ m :: post).Pairwise Nat.Coprime)
    (hlen : xs1.length = pre.length) :
    (List.zipWith (· * ·) (xs1 ++ x :: xs2)
      (unit_vectors (pre ++ m :: post))).sum ≡ x [MOD m] := by
  have hm : Nat.Prime m := hprime m (by simp)
  have huv : unit_vectors (pre ++ m :: post) =
      (pre.map fun v => zn_barett.pow (pre ++ m :: post).prod
        ((pre ++ m :: post).prod / v) (v - 1)) ++
      zn_barett.pow (pre ++ m :: post).prod ((pre ++ m :: post).prod / m) (m - 1) ::
      (post.map fun v => zn_barett.pow (pre ++ m :: post).prod
        ((pre ++ m :: post).prod / v) (v - 1)) := by
    rw [unit_vectors, List.map_append, List.map_cons]
  rw [huv]
  refine zip_sum_congr _ _ _ _ _ _ (by simp [hlen]) ?_ ?_
    (unit_one pre post hm (pairwise_coprime_decomp hcop))
  · intro u hu
    rw [List.mem_map] at hu
    obtain ⟨v, hv, rfl⟩ := hu
    obtain ⟨s, t, hst⟩ := List.append_of_mem hv
    have hdec : pre ++ m :: post = s ++ v :: (t ++ m :: post) := by
      rw [hst]; simp
    have hv2 : 2 ≤ v := (hprime v (by simp [hv])).two_le
    have := unit_zero (m := m) s (t ++ m :: post) v hv2 (by simp)
    rw [hdec]
    exact this
  · intro u hu
    rw [List.mem_map] at hu
    obtain ⟨v, hv, rfl⟩ := hu
    obtain ⟨s, t, hst⟩ := List.append_of_mem hv
    have hdec : pre ++ m :: post = (pre ++ m :: s) ++ v :: t := by
      rw [hst]; simp
    have hv2 : 2 ≤ v := (hprime v (by simp [hv])).two_le
    have := unit_zero (m := m) (pre ++ m :: s) t v hv2 (by simp)
    rw [hdec]
    exact this

theorem map_out_eq_raw (ms : List ℕ) (xs : List ℕ) :
    map_out ms xs = (List.zipWith (· * ·) xs (unit_vectors ms)).sum % ms.prod := by
  rw [map_out, zn_barett.sum_eq]
  have : ∀ (us : List ℕ),
      (List.zipWith (fun x u => zn_barett.mul ms.prod x u) xs us).sum
        ≡ (List.zipWith (· * ·) xs us).sum [MOD ms.prod] := by
    intro us
    induction xs generalizing us with
    | nil => simp [Nat.ModEq.refl]
    | cons x xs ih =>
      cases us with
      | nil => simp [Nat.ModEq.refl]
      | cons u us =>
        simp only [List.zipWith_cons_cons, List.sum_cons]
        exact (Nat.mod_modEq _ _).add (ih us)
  exact this (unit_vectors ms)

end zn_rns

/-- C3 (amended): the canonical maps between the `Z/nZ` implementations are
mutually inverse up to ring equality — unconditionally between Barett and
the fast 64-bit ring with equal modulus, and between Barett and the RNS
ring with equal modulus provided the RNS component moduli are prime (and
pairwise coprime, as asserted by the constructor). -/
theorem canonical_iso_round_trips :
    (∀ n x, zn_42.NewAsserts n → x < n →
      zn_42.map_out_to_barett n (zn_42.map_in_from_barett x) = x) ∧
    (∀ n x, zn_42.NewAsserts n → x ≤ zn_42.repr_bound n →
      zn_42.eq_el n (zn_42.map_in_from_barett (zn_42.map_out_to_barett n x)) x = true) ∧
    (∀ ms : List ℕ, (∀ m ∈ ms, Nat.Prime m) → ms.Pairwise Nat.Coprime →
      (∀ x, x < ms.prod → zn_rns.map_out ms (zn_rns.map_in ms x) = x) ∧
      (∀ xs : List ℕ, List.Forall₂ (· < ·) xs ms →
        zn_rns.map_in ms (zn_rns.map_out ms xs) = xs)) := by
  have hkey : ∀ (ms : List ℕ), (∀ m ∈ ms, Nat.Prime m) → ms.Pairwise Nat.Coprime →
      ∀ (xs : List ℕ) (i : ℕ) (hi : i < ms.length) (hlen : xs.length = ms.length),
      (List.zipWith (· * ·) xs (zn_rns.unit_vectors ms)).sum
        ≡ xs.get ⟨i, by omega⟩ [MOD ms.get ⟨i, hi⟩] := by
    intro ms hprime hcop xs i hi hlen
    have hdec : ms = ms.take i ++ ms.get ⟨i, hi⟩ :: ms.drop (i + 1) := by
      conv_lhs => rw [← List.take_append_drop i ms]
      congr 1
      rw [List.drop_eq_getElem_cons hi]
      rfl
    have hxdec : xs = xs.take i ++ xs.get ⟨i, by omega⟩ :: xs.drop (i + 1) := by
      conv_lhs => rw [← List.take_append_drop i xs]
      congr 1
      rw [List.drop_eq_getElem_cons (by omega)]
      rfl
    have hl1 : (xs.take i).length = (ms.take i).length := by
      simp only [List.length_take]
      omega
    have h := zn_rns.raw_sum_congr (ms.take i) (ms.drop (i + 1)) (xs.take i)
      (xs.drop (i + 1)) (xs.get ⟨i, by omega⟩) (hdec ▸ hprime) (hdec ▸ hcop) hl1
    rw [← hxdec, ← hdec] at h
    exact h
  refine ⟨?_, ?_, ?_⟩
  · intro n x _ hx
    rw [zn_42.map_in_from_barett, zn_42.map_out_to_barett_eq, Nat.mod_eq_of_lt hx]
  · intro n x hA hx
    have hB1 : 1 ≤ zn_42.repr_bound n := le_trans (by norm_num) hA.pow16_le
    have hBsq : zn_42.repr_bound n ≤ zn_42.repr_bound n * zn_42.repr_bound n :=
      Nat.le_mul_of_pos_left _ (by omega)
    rw [zn_42.map_in_from_barett, zn_42.map_out_to_barett_eq, zn_42.eq_el]
    have hmle : x % n ≤ x := Nat.mod_le x n
    split
    · have hxeq : x % n = x := by omega
      rw [hxeq, Nat.sub_self]
      exact zn_42.is_zero_of_multiple hA (by omega) (by simp)
    · refine zn_42.is_zero_of_multiple hA (by omega) ?_
      have hd := Nat.div_add_mod x n
      have hsub : x - x % n = n * (x / n) := by omega
      rw [hsub, Nat.mul_mod_right]
  · intro ms hprime hcop
    have hpos : 0 < ms.prod := by
      refine List.prod_pos ?_
      intro a ha
      exact (hprime a ha).pos
    constructor
    · intro x hx
      rw [zn_rns.map_out_eq_raw]
      have hcongr : (List.zipWith (· * ·) (zn_rns.map_in ms x)
          (zn_rns.unit_vectors ms)).sum ≡ x [MOD ms.prod] := by
        refine zn_rns.modEq_prod_of_forall_mem ms hcop ?_
        intro m hm
        obtain ⟨i, hi⟩ := List.mem_iff_get.mp hm
        have hlen : (zn_rns.map_in ms x).length = ms.length := by
          simp [zn_rns.map_in]
        have h := hkey ms hprime hcop (zn_rns.map_in ms x) i.1 i.2 hlen
        have hget : (zn_rns.map_in ms x).get ⟨i.1, by omega⟩ = x % ms.get ⟨i.1, i.2⟩ := by
          simp [zn_rns.map_in, List.get_eq_getElem]
        rw [hget] at h
        rw [← hi]
        calc (List.zipWith (· * ·) (zn_rns.map_in ms x) (zn_rns.unit_vectors ms)).sum
            ≡ x % ms.get ⟨i.1, i.2⟩ [MOD ms.get ⟨i.1, i.2⟩] := by
              have : (⟨i.1, i.2⟩ : Fin ms.length) = i := rfl
              rw [this] at h ⊢
              exact h
          _ ≡ x [MOD ms.get ⟨i.1, i.2⟩] := Nat.mod_modEq x _
      calc (List.zipWith (· * ·) (zn_rns.map_in ms x) (zn_rns.unit_vectors ms)).sum % ms.prod
          = x % ms.prod := hcongr
        _ = x := Nat.mod_eq_of_lt hx
    · intro xs hxs
      have hlen : xs.length = ms.length := List.Forall₂.length_eq hxs
      have hltget : ∀ (i : ℕ) (h1 : i < xs.length) (h2 : i < ms.length),
          xs.get ⟨i, h1⟩ < ms.get ⟨i, h2⟩ :=
        (List.forall₂_iff_get.mp hxs).2
      refine List.ext_get (by simp [zn_rns.map_in, hlen]) ?_
      intro i h1 h2
      have hi : i < ms.length := by simpa [zn_rns.map_in] using h1
      have hget : (zn_rns.map_in ms (zn_rns.map_out ms xs)).get ⟨i, h1⟩ =
          zn_rns.map_out ms xs % ms.get ⟨i, hi⟩ := by
        simp [zn_rns.map_in, List.get_eq_getElem]
      rw [hget]
      have hdvd : ms.get ⟨i, hi⟩ ∣ ms.prod := List.dvd_prod (List.get_mem ms i hi)
      rw [zn_rns.map_out_eq_raw, Nat.mod_mod_of_dvd _ hdvd]
      have h := hkey ms hprime hcop xs i hi hlen
      have := hltget i (by omega) hi
      calc (List.zipWith (· * ·) xs (zn_rns.unit_vectors ms)).sum % ms.get ⟨i, hi⟩
          = xs.get ⟨i, by omega⟩ % ms.get ⟨i, hi⟩ := h
        _ = xs.get ⟨i, by omega⟩ := Nat.mod_eq_of_lt (by omega)

/-- C3 counterexample to the claim as stated: the RNS ring over the component
moduli `[9, 2]` (modulus `18`) passes every constructor assertion — they are
coprime but `9` is not prime — and its canonical isomorphism with the Barett
ring of modulus `18` fails to round-trip: the Barett element `10` maps to the
congruence vector `[1, 0]` and back to `4`. -/
theorem zn_rns_round_trip_counterexample :
    zn_rns_new_ok [9, 2] = true ∧
    (10 : ℕ) < ([9, 2] : List ℕ).prod ∧
    zn_rns.map_in [9, 2] 10 = [1, 0] ∧
    zn_rns.map_out [9, 2] (zn_rns.map_in [9, 2] 10) = 4 ∧
    ¬ zn_rns.map_out [9, 2] (zn_rns.map_in [9, 2] 10) = 10 := by decide

/-- Witness for C3: the fast-64-bit/Barett round trips at `n = 7` and the
RNS/Barett round trips at the prime components `[3, 5]` with `x = 7` and
`xs = [2, 4]`. -/
theorem canonical_iso_round_trips_witness :
    (zn_42.map_out_to_barett 7 (zn_42.map_in_from_barett 3) = 3) ∧
    (zn_42.eq_el 7 (zn_42.map_in_from_barett (zn_42.map_out_to_barett 7 8388604)) 8388604
      = true) ∧
    (zn_rns.map_out [3, 5] (zn_rns.map_in [3, 5] 7) = 7) ∧
    (zn_rns.map_in [3, 5] (zn_rns.map_out [3, 5] [2, 4]) = [2, 4]) := by
  have hA : zn_42.NewAsserts 7 := ⟨by decide, by decide, by decide, by decide, by decide⟩
  refine ⟨canonical_iso_round_trips.1 7 3 hA (by decide), ?_, ?_, ?_⟩
  · refine canonical_iso_round_trips.2.1 7 8388604 hA ?_
    have : zn_42.repr_bound 7 = 8388604 := by decide
    omega
  · exact (canonical_iso_round_trips.2.2 [3, 5] (by decide) (by decide)).1 7 (by decide)
  · refine (canonical_iso_round_trips.2.2 [3, 5] (by decide) (by decide)).2 [2, 4] ?_
    refine List.Forall₂.cons (by decide) (List.Forall₂.cons (by decide) List.Forall₂.nil)

/-! ## FFT tables (`algorithms/fft/mod.rs`, `fft/factor_fft.rs`, `bluestein.rs`)

The power-of-two Cooley–Tukey table `cooley_tuckey.rs` is referenced by
`bluestein.rs` and `fft/factor_fft.rs` but its source file is not part of
the snapshot; following the conventions above it is modelled from the
specification: the unordered forward transform writes the evaluation at
`ω^{bitrev_k(i)}` to index `i` under the trait convention
`Fa_k = ∑ᵢ aᵢ ζ^{-ik}`, the unordered inverse mirrors it with inverse
roots and finishes by scaling with `1/2^k`, and the exposed permutation is
`bitrev_k`.  Vectors of ring elements are modelled as functions `ℕ → R`;
an in-place routine on a length-`N` vector becomes a function transformer
whose result is only ever read at indices `< N`. -/

namespace fft

/-- Bit reversal of the `k` low bits of `i` (the permutation
`bitrev_k` exposed by the power-of-two table). -/
def bitrev : ℕ → ℕ → ℕ
  | 0, _ => 0
  | k+1, i => i % 2 * 2 ^ k + bitrev k (i / 2)

/-- Unfolding equation of `bitrev` at a successor bit count. -/
theorem bitrev_succ (k i : ℕ) : bitrev (k+1) i = i % 2 * 2 ^ k + bitrev k (i / 2) := rfl

/-- `bitrev k` lands below `2^k`. -/
theorem bitrev_lt : ∀ k i : ℕ, bitrev k i < 2 ^ k
  | 0, _ => by simp [bitrev]
  | k+1, i => by
    have h1 := bitrev_lt k (i / 2)
    have h2 : i % 2 * 2 ^ k ≤ 1 * 2 ^ k :=
      Nat.mul_le_mul_right _ (Nat.le_of_lt_succ (Nat.mod_lt i (by norm_num)))
    have h3 : 2 ^ (k + 1) = 2 ^ k * 2 := pow_succ 2 k
    simp only [bitrev]
    omega

/-- `bitrev` on a most-significant-bit decomposition. -/
theorem bitrev_msb : ∀ k b r : ℕ, b < 2 → r < 2 ^ k →
    bitrev (k+1) (b * 2 ^ k + r) = 2 * bitrev k r + b
  | 0, b, r, hb, hr => by
    have hr0 : r = 0 := by omega
    subst hr0
    simp [bitrev]
    omega
  | k+1, b, r, hb, hr => by
    have h2 : 2 ^ (k+1) = 2 * 2 ^ k := by ring
    have hrw : b * 2 ^ (k+1) + r = 2 * (b * 2 ^ k) + r := by rw [h2]; ring
    have hdiv : (b * 2 ^ (k+1) + r) / 2 = b * 2 ^ k + r / 2 := by
      rw [hrw]
      exact Nat.mul_add_div (by norm_num) _ _
    have hmod : (b * 2 ^ (k+1) + r) % 2 = r % 2 := by
      rw [hrw]
      exact Nat.mul_add_mod 2 _ _
    have hr2 : r / 2 < 2 ^ k := by omega
    have ih := bitrev_msb k b (r / 2) hb hr2
    rw [bitrev_succ, hmod, hdiv, ih, bitrev_succ]
    rcases Nat.mod_two_eq_zero_or_one r with h | h <;> rw [h] <;> ring

/-- `bitrev k` is an involution on `{0, …, 2^k − 1}`. -/
theorem bitrev_bitrev : ∀ k i : ℕ, i < 2 ^ k → bitrev k (bitrev k i) = i
  | 0, i, hi => by
    have : i = 0 := by omega
    subst this
    rfl
  | k+1, i, hi => by
    have h1 : bitrev k (i / 2) < 2 ^ k := bitrev_lt k (i / 2)
    have h2 : i % 2 < 2 := Nat.mod_lt i (by norm_num)
    have hp : 2 ^ (k+1) = 2 * 2 ^ k := by ring
    have ih := bitrev_bitrev k (i / 2) (by omega)
    rw [bitrev_succ k i, bitrev_msb k (i % 2) (bitrev k (i / 2)) h2 h1, ih]
    omega

/-- Two integers whose difference is a multiple of `m` share a remainder. -/
theorem emod_eq_of_dvd_sub {a b m : ℤ} (h : m ∣ b - a) : a % m = b % m := by
  obtain ⟨t, ht⟩ := h
  have hb : b = a + m * t := by omega
  rw [hb, Int.add_mul_emod_self_left]

end fft

namespace fft

section EpowLemmas

variable {R : Type} [CommRing R]

/-- Power of a ring element by an integer exponent reduced into `[0, N)`
modulo the order `N`: how the tables raise a root of unity to a possibly
negative exponent. -/
def epow (ω : R) (N : ℕ) (e : ℤ) : R := ω ^ (e % (N : ℤ)).toNat

/-- Reducing a natural exponent modulo the order of the base does not
change the power. -/
theorem pow_mod_order (ω : R) {N : ℕ} (hω : ω ^ N = 1) (a : ℕ) :
    ω ^ a = ω ^ (a % N) := by
  conv_lhs => rw [← Nat.div_add_mod a N]
  rw [pow_add, pow_mul, hω, one_pow, one_mul]

/-- `epow` agrees with the natural power at any natural representative of
the exponent class. -/
theorem epow_eq_pow {ω : R} {N : ℕ} (hω : ω ^ N = 1) (hN : 0 < N) {e : ℤ} {a : ℕ}
    (h : (a : ℤ) % (N : ℤ) = e % (N : ℤ)) : epow ω N e = ω ^ a := by
  have hNz : (N : ℤ) ≠ 0 := by exact_mod_cast hN.ne'
  have h1 : ((e % (N : ℤ)).toNat : ℤ) = e % (N : ℤ) :=
    Int.toNat_of_nonneg (Int.emod_nonneg _ hNz)
  have h3 : ((a % N : ℕ) : ℤ) = (a : ℤ) % (N : ℤ) := Int.natCast_mod a N
  have h2 : (e % (N : ℤ)).toNat = a % N := by
    have h4 : ((a % N : ℕ) : ℤ) = ((e % (N : ℤ)).toNat : ℤ) := by rw [h3, h, h1]
    exact_mod_cast h4.symm
  rw [epow, h2, ← pow_mod_order ω hω]

/-- `epow` turns integer exponent addition into multiplication. -/
theorem epow_add {ω : R} {N : ℕ} (hω : ω ^ N = 1) (hN : 0 < N) (a b : ℤ) :
    epow ω N (a + b) = epow ω N a * epow ω N b := by
  have hNz : (N : ℤ) ≠ 0 := by exact_mod_cast hN.ne'
  have hA : ((a % (N : ℤ)).toNat : ℤ) = a % (N : ℤ) :=
    Int.toNat_of_nonneg (Int.emod_nonneg _ hNz)
  have hB : ((b % (N : ℤ)).toNat : ℤ) = b % (N : ℤ) :=
    Int.toNat_of_nonneg (Int.emod_nonneg _ hNz)
  have hsum : epow ω N (a + b) = ω ^ ((a % (N : ℤ)).toNat + (b % (N : ℤ)).toNat) := by
    refine epow_eq_pow hω hN ?_
    push_cast
    rw [hA, hB]
    conv_rhs => rw [Int.add_emod]
  rw [hsum, pow_add, epow, epow]

/-- Congruent integer exponents give equal `epow` values. -/
theorem epow_congr {ω : R} (N : ℕ) {a b : ℤ} (h : a % (N : ℤ) = b % (N : ℤ)) :
    epow ω N a = epow ω N b := by rw [epow, epow, h]

/-- A sum over one period is invariant under the bit-reversal reindexing. -/
theorem sum_bitrev_reindex (k : ℕ) (f : ℕ → R) :
    ∑ j ∈ Finset.range (2 ^ k), f (bitrev k j) = ∑ j ∈ Finset.range (2 ^ k), f j := by
  refine Finset.sum_nbij' (bitrev k) (bitrev k) ?_ ?_ ?_ ?_ ?_
  · intro a _
    exact Finset.mem_range.mpr (bitrev_lt k a)
  · intro a _
    exact Finset.mem_range.mpr (bitrev_lt k a)
  · intro a ha
    exact bitrev_bitrev k a (Finset.mem_range.mp ha)
  · intro a ha
    exact bitrev_bitrev k a (Finset.mem_range.mp ha)
  · intro a _
    rfl

/-- Orthogonality of a principal root of unity: the `epow` sum over one
period vanishes except on the zero exponent class.  The vanishing of the
nontrivial geometric sums is the hypothesis `horth`, which is exactly what
a primitive root satisfies in the exact rings the tables are built over. -/
theorem sum_epow_orth {ω : R} {N : ℕ} (hω : ω ^ N = 1) (hN : 0 < N)
    (horth : ∀ t, 0 < t → t < N → ∑ j ∈ Finset.range N, ω ^ (j * t % N) = 0) (e : ℤ) :
    ∑ j ∈ Finset.range N, epow ω N ((j : ℤ) * e) =
      if e % (N : ℤ) = 0 then (N : R) else 0 := by
  have hNz : (N : ℤ) ≠ 0 := by exact_mod_cast hN.ne'
  have hr : ((e % (N : ℤ)).toNat : ℤ) = e % (N : ℤ) :=
    Int.toNat_of_nonneg (Int.emod_nonneg _ hNz)
  have hre : ((e % (N : ℤ)).toNat : ℤ) % (N : ℤ) = e % (N : ℤ) := by
    rw [hr, Int.emod_emod_of_dvd _ dvd_rfl]
  have hterm : ∀ j : ℕ, epow ω N ((j : ℤ) * e) = ω ^ (j * (e % (N : ℤ)).toNat % N) := by
    intro j
    refine epow_eq_pow hω hN ?_
    have h1 : ((j * (e % (N : ℤ)).toNat % N : ℕ) : ℤ)
        = ((j : ℤ) * ((e % (N : ℤ)).toNat : ℤ)) % (N : ℤ) := by
      push_cast
      rfl
    rw [h1, Int.emod_emod_of_dvd _ dvd_rfl, Int.mul_emod (j : ℤ) _,
      Int.mul_emod (j : ℤ) e, hre]
  rw [Finset.sum_congr rfl fun j _ => hterm j]
  by_cases he : e % (N : ℤ) = 0
  · rw [if_pos he]
    have hr0 : (e % (N : ℤ)).toNat = 0 := by rw [he]; rfl
    rw [hr0]
    have hone : ∀ j ∈ Finset.range N, ω ^ (j * 0 % N) = 1 := by
      intro j _
      simp
    rw [Finset.sum_congr rfl hone, Finset.sum_const, Finset.card_range, nsmul_eq_mul, mul_one]
  · rw [if_neg he]
    have h0 : 0 ≤ e % (N : ℤ) := Int.emod_nonneg _ hNz
    have h5 : e % (N : ℤ) < (N : ℤ) := Int.emod_lt_of_pos e (by exact_mod_cast hN)
    exact horth _ (by omega) (by omega)

end EpowLemmas

end fft

namespace fft

section CooleyTukey

variable {R : Type} [CommRing R]

/-- Modelled from the spec: `FFTTableCooleyTuckey::unordered_fft`
(`cooley_tuckey.rs`, not part of the snapshot).  The output at index `i`
is the evaluation of the input at `ω^{bitrev_k(i)}` under the trait
convention `Fa_k = ∑ⱼ aⱼ ζ^{-jk}`. -/
def ct_unordered_fft (ω : R) (k : ℕ) (x : ℕ → R) : ℕ → R :=
  fun i => ∑ j ∈ Finset.range (2 ^ k),
    x j * epow ω (2 ^ k) (-((bitrev k i : ℤ) * (j : ℤ)))

/-- Modelled from the spec: `FFTTableCooleyTuckey::unordered_inv_fft` —
the mirror transform with inverse roots, concluded by scaling with
`1/2^k`, supplied here as the ring element `inv2k`. -/
def ct_unordered_inv_fft (ω inv2k : R) (k : ℕ) (y : ℕ → R) : ℕ → R :=
  fun i => inv2k * ∑ j ∈ Finset.range (2 ^ k),
    y j * epow ω (2 ^ k) ((bitrev k j : ℤ) * (i : ℤ))

/-- Modelled from the spec: `unordered_fft_permutation` of the
power-of-two table is `bitrev_k` (which is also its own inverse). -/
def ct_unordered_fft_permutation (k i : ℕ) : ℕ := bitrev k i

/-- The forward transform reads its input only below `2^k`. -/
theorem ct_unordered_fft_ext (ω : R) (k : ℕ) (x y : ℕ → R)
    (h : ∀ j, j < 2 ^ k → x j = y j) (i : ℕ) :
    ct_unordered_fft ω k x i = ct_unordered_fft ω k y i := by
  unfold ct_unordered_fft
  exact Finset.sum_congr rfl fun j hj => by rw [h j (Finset.mem_range.mp hj)]

/-- The inverse transform reads its input only below `2^k`. -/
theorem ct_unordered_inv_fft_ext (ω inv2k : R) (k : ℕ) (x y : ℕ → R)
    (h : ∀ j, j < 2 ^ k → x j = y j) (i : ℕ) :
    ct_unordered_inv_fft ω inv2k k x i = ct_unordered_inv_fft ω inv2k k y i := by
  unfold ct_unordered_inv_fft
  exact congrArg (inv2k * ·)
    (Finset.sum_congr rfl fun j hj => by rw [h j (Finset.mem_range.mp hj)])

/-- Summing against the orthogonality delta picks out the representative
below `N` of the exponent class `E`. -/
theorem sum_delta_pick {N : ℕ} (g : ℕ → R) (c₀ : ℕ) (hc₀ : c₀ < N) (E : ℤ)
    (hE : E % (N : ℤ) = (c₀ : ℤ) % (N : ℤ)) :
    ∑ a ∈ Finset.range N, g a * (if (E - (a : ℤ)) % (N : ℤ) = 0 then (N : R) else 0)
      = g c₀ * (N : R) := by
  have hmain : ∑ a ∈ Finset.range N,
      g a * (if (E - (a : ℤ)) % (N : ℤ) = 0 then (N : R) else 0)
      = g c₀ * (if (E - (c₀ : ℤ)) % (N : ℤ) = 0 then (N : R) else 0) := by
    refine Finset.sum_eq_single c₀ ?_ ?_
    · intro a ha hne
      have haN := Finset.mem_range.mp ha
      have hcond : ¬(E - (a : ℤ)) % (N : ℤ) = 0 := by
        intro hc
        have hd : ((N : ℤ)) ∣ (E - (a : ℤ)) := Int.dvd_of_emod_eq_zero hc
        have h1 : ((a : ℤ)) % (N : ℤ) = ((c₀ : ℤ)) % (N : ℤ) :=
          (emod_eq_of_dvd_sub hd).trans hE
        have h3 : ((a : ℤ)) % (N : ℤ) = (a : ℤ) :=
          Int.emod_eq_of_lt (by positivity) (by exact_mod_cast haN)
        have h4 : ((c₀ : ℤ)) % (N : ℤ) = (c₀ : ℤ) :=
          Int.emod_eq_of_lt (by positivity) (by exact_mod_cast hc₀)
        rw [h3, h4] at h1
        exact hne (by exact_mod_cast h1)
      rw [if_neg hcond, mul_zero]
    · intro hni
      exact absurd (Finset.mem_range.mpr hc₀) hni
  have hzero : (E - (c₀ : ℤ)) % (N : ℤ) = 0 := by
    rw [Int.sub_emod, hE, sub_self, Int.zero_emod]
  rw [hmain, if_pos hzero]

/-- Modelled round trip of the power-of-two table: `unordered_inv_fft`
inverts `unordered_fft` whenever `ω` is a principal `2^k`-th root of unity
and `inv2k` inverts `2^k`. -/
theorem ct_round_trip (ω inv2k : R) (k : ℕ) (hω : ω ^ 2 ^ k = 1)
    (horth : ∀ t, 0 < t → t < 2 ^ k →
      ∑ j ∈ Finset.range (2 ^ k), ω ^ (j * t % 2 ^ k) = 0)
    (hinv : inv2k * ((2 ^ k : ℕ) : R) = 1) (x : ℕ → R) (i : ℕ) (hi : i < 2 ^ k) :
    ct_unordered_inv_fft ω inv2k k (ct_unordered_fft ω k x) i = x i := by
  have h2 : (0 : ℕ) < 2 ^ k := pow_pos (by norm_num) k
  show inv2k * ∑ j ∈ Finset.range (2 ^ k),
      ct_unordered_fft ω k x j * epow ω (2 ^ k) ((bitrev k j : ℤ) * (i : ℤ)) = x i
  have hstep1 : ∀ j : ℕ,
      ct_unordered_fft ω k x j * epow ω (2 ^ k) ((bitrev k j : ℤ) * (i : ℤ))
        = ∑ a ∈ Finset.range (2 ^ k),
            x a * epow ω (2 ^ k) ((bitrev k j : ℤ) * ((i : ℤ) - (a : ℤ))) := by
    intro j
    unfold ct_unordered_fft
    rw [Finset.sum_mul]
    refine Finset.sum_congr rfl fun a _ => ?_
    rw [mul_assoc, ← epow_add hω h2]
    have he : -((bitrev k j : ℤ) * (a : ℤ)) + (bitrev k j : ℤ) * (i : ℤ)
        = (bitrev k j : ℤ) * ((i : ℤ) - (a : ℤ)) := by ring
    rw [he]
  rw [Finset.sum_congr rfl fun j _ => hstep1 j, Finset.sum_comm]
  have hstep2 : ∀ a : ℕ,
      ∑ j ∈ Finset.range (2 ^ k),
          x a * epow ω (2 ^ k) ((bitrev k j : ℤ) * ((i : ℤ) - (a : ℤ)))
        = x a * (if ((i : ℤ) - (a : ℤ)) % ((2 ^ k : ℕ) : ℤ) = 0
            then ((2 ^ k : ℕ) : R) else 0) := by
    intro a
    rw [← Finset.mul_sum]
    congr 1
    exact (sum_bitrev_reindex k
        fun t => epow ω (2 ^ k) ((t : ℤ) * ((i : ℤ) - (a : ℤ)))).trans
      (sum_epow_orth hω h2 horth ((i : ℤ) - (a : ℤ)))
  rw [Finset.sum_congr rfl fun a _ => hstep2 a, sum_delta_pick x i hi (i : ℤ) rfl]
  calc inv2k * (x i * ((2 ^ k : ℕ) : R)) = x i * (inv2k * ((2 ^ k : ℕ) : R)) := by ring
    _ = x i := by rw [hinv, mul_one]

end CooleyTukey

end fft

namespace fft

section OrderedAndConvolution

variable {R : Type} [CommRing R]

/-- Modelled from the spec: the default `FFTTable::fft` (`fft/mod.rs`
lines 49-57 composed with `permute::permute_inv`, whose source is not in
the snapshot): the unordered transform followed by the inverse of the
table permutation, so the ordered output at `j` is the unordered output
at `perm_inv j`. -/
def fft_ordered (unord : (ℕ → R) → ℕ → R) (perm_inv : ℕ → ℕ) (x : ℕ → R) : ℕ → R :=
  fun j => unord x (perm_inv j)

/-- Modelled from the spec: the default `FFTTable::inv_fft` (`fft/mod.rs`
lines 59-67 composed with `permute::permute`): apply the table permutation
to the input, then the unordered inverse transform. -/
def inv_fft_ordered (unord_inv : (ℕ → R) → ℕ → R) (perm : ℕ → ℕ) (y : ℕ → R) : ℕ → R :=
  unord_inv (fun i => y (perm i))

omit [CommRing R] in
/-- The default ordered transforms round-trip for any table whose
unordered transforms round-trip, whose inverse transform only reads the
table length, and whose permutation pair is inverse. -/
theorem ordered_round_trip (unord unord_inv : (ℕ → R) → ℕ → R) (perm perm_inv : ℕ → ℕ)
    (len : ℕ)
    (hrt : ∀ x : ℕ → R, ∀ i, i < len → unord_inv (unord x) i = x i)
    (hext : ∀ x y : ℕ → R, (∀ j, j < len → x j = y j) →
      ∀ i, i < len → unord_inv x i = unord_inv y i)
    (hperm : ∀ i, i < len → perm i < len ∧ perm_inv (perm i) = i)
    (x : ℕ → R) (i : ℕ) (hi : i < len) :
    inv_fft_ordered unord_inv perm (fft_ordered unord perm_inv x) i = x i := by
  unfold inv_fft_ordered fft_ordered
  have h1 : ∀ j, j < len → unord x (perm_inv (perm j)) = unord x j := by
    intro j hj
    rw [(hperm j hj).2]
  exact (hext _ _ h1 i hi).trans (hrt x i hi)

/-- Pointwise multiplication after the forward transform followed by the
inverse transform computes the cyclic convolution — the identity
`fft_base` relies on. -/
theorem ct_convolution (θ inv2k : R) (k : ℕ) (hθ : θ ^ 2 ^ k = 1)
    (horth : ∀ t, 0 < t → t < 2 ^ k →
      ∑ j ∈ Finset.range (2 ^ k), θ ^ (j * t % 2 ^ k) = 0)
    (hinv : inv2k * ((2 ^ k : ℕ) : R) = 1) (u v : ℕ → R) (i : ℕ) :
    ct_unordered_inv_fft θ inv2k k
        (fun t => ct_unordered_fft θ k u t * ct_unordered_fft θ k v t) i
      = ∑ a ∈ Finset.range (2 ^ k), u a * v ((i + 2 ^ k - a) % 2 ^ k) := by
  have h2 : (0 : ℕ) < 2 ^ k := pow_pos (by norm_num) k
  show inv2k * ∑ j ∈ Finset.range (2 ^ k),
      (ct_unordered_fft θ k u j * ct_unordered_fft θ k v j)
        * epow θ (2 ^ k) ((bitrev k j : ℤ) * (i : ℤ))
    = ∑ a ∈ Finset.range (2 ^ k), u a * v ((i + 2 ^ k - a) % 2 ^ k)
  have hstep1 : ∀ j : ℕ,
      (ct_unordered_fft θ k u j * ct_unordered_fft θ k v j)
          * epow θ (2 ^ k) ((bitrev k j : ℤ) * (i : ℤ))
        = ∑ a ∈ Finset.range (2 ^ k), ∑ c ∈ Finset.range (2 ^ k),
            u a * v c * epow θ (2 ^ k) ((bitrev k j : ℤ) * ((i : ℤ) - (a : ℤ) - (c : ℤ))) := by
    intro j
    unfold ct_unordered_fft
    rw [Finset.sum_mul_sum, Finset.sum_mul]
    refine Finset.sum_congr rfl fun a _ => ?_
    rw [Finset.sum_mul]
    refine Finset.sum_congr rfl fun c _ => ?_
    have h1 : epow θ (2 ^ k) (-((bitrev k j : ℤ) * (a : ℤ)))
          * epow θ (2 ^ k) (-((bitrev k j : ℤ) * (c : ℤ)))
          * epow θ (2 ^ k) ((bitrev k j : ℤ) * (i : ℤ))
        = epow θ (2 ^ k) ((bitrev k j : ℤ) * ((i : ℤ) - (a : ℤ) - (c : ℤ))) := by
      rw [← epow_add hθ h2, ← epow_add hθ h2]
      have he : -((bitrev k j : ℤ) * (a : ℤ)) + -((bitrev k j : ℤ) * (c : ℤ))
          + (bitrev k j : ℤ) * (i : ℤ)
          = (bitrev k j : ℤ) * ((i : ℤ) - (a : ℤ) - (c : ℤ)) := by ring
      rw [he]
    calc u a * epow θ (2 ^ k) (-((bitrev k j : ℤ) * (a : ℤ)))
          * (v c * epow θ (2 ^ k) (-((bitrev k j : ℤ) * (c : ℤ))))
          * epow θ (2 ^ k) ((bitrev k j : ℤ) * (i : ℤ))
        = u a * v c * (epow θ (2 ^ k) (-((bitrev k j : ℤ) * (a : ℤ)))
            * epow θ (2 ^ k) (-((bitrev k j : ℤ) * (c : ℤ)))
            * epow θ (2 ^ k) ((bitrev k j : ℤ) * (i : ℤ))) := by ring
      _ = u a * v c * epow θ (2 ^ k) ((bitrev k j : ℤ) * ((i : ℤ) - (a : ℤ) - (c : ℤ))) := by
          rw [h1]
  rw [Finset.sum_congr rfl fun j _ => hstep1 j, Finset.sum_comm,
    Finset.sum_congr rfl fun a _ => Finset.sum_comm]
  have hstep2 : ∀ a c : ℕ,
      ∑ j ∈ Finset.range (2 ^ k),
          u a * v c * epow θ (2 ^ k) ((bitrev k j : ℤ) * ((i : ℤ) - (a : ℤ) - (c : ℤ)))
        = u a * v c * (if ((i : ℤ) - (a : ℤ) - (c : ℤ)) % ((2 ^ k : ℕ) : ℤ) = 0
            then ((2 ^ k : ℕ) : R) else 0) := by
    intro a c
    rw [← Finset.mul_sum]
    congr 1
    exact (sum_bitrev_reindex k
        fun t => epow θ (2 ^ k) ((t : ℤ) * ((i : ℤ) - (a : ℤ) - (c : ℤ)))).trans
      (sum_epow_orth hθ h2 horth ((i : ℤ) - (a : ℤ) - (c : ℤ)))
  rw [Finset.sum_congr rfl fun a _ => Finset.sum_congr rfl fun c _ => hstep2 a c]
  have hstep3 : ∀ a, a ∈ Finset.range (2 ^ k) →
      ∑ c ∈ Finset.range (2 ^ k),
          u a * v c * (if ((i : ℤ) - (a : ℤ) - (c : ℤ)) % ((2 ^ k : ℕ) : ℤ) = 0
            then ((2 ^ k : ℕ) : R) else 0)
        = u a * v ((i + 2 ^ k - a) % 2 ^ k) * ((2 ^ k : ℕ) : R) := by
    intro a ha
    have haN := Finset.mem_range.mp ha
    have hc₀ : (i + 2 ^ k - a) % 2 ^ k < 2 ^ k := Nat.mod_lt _ h2
    have hcast : (((i + 2 ^ k - a) % 2 ^ k : ℕ) : ℤ) % ((2 ^ k : ℕ) : ℤ)
        = ((i : ℤ) - (a : ℤ)) % ((2 ^ k : ℕ) : ℤ) := by
      rw [Int.natCast_mod, Int.emod_emod_of_dvd _ dvd_rfl]
      have h3 : ((i + 2 ^ k - a : ℕ) : ℤ) = (i : ℤ) + ((2 ^ k : ℕ) : ℤ) - (a : ℤ) := by
        omega
      rw [h3]
      exact (emod_eq_of_dvd_sub ⟨1, by ring⟩).symm
    exact sum_delta_pick (fun c => u a * v c) _ hc₀ ((i : ℤ) - (a : ℤ)) hcast.symm
  rw [Finset.sum_congr rfl hstep3, Finset.mul_sum]
  refine Finset.sum_congr rfl fun a _ => ?_
  calc inv2k * (u a * v ((i + 2 ^ k - a) % 2 ^ k) * ((2 ^ k : ℕ) : R))
      = u a * v ((i + 2 ^ k - a) % 2 ^ k) * (inv2k * ((2 ^ k : ℕ) : R)) := by ring
    _ = u a * v ((i + 2 ^ k - a) % 2 ^ k) := by rw [hinv, mul_one]

end OrderedAndConvolution

end fft

namespace fft

section Bluestein

variable {R : Type} [CommRing R]

/-- The chirp sequence `b` built by `FFTTableBluestein::new`
(`bluestein.rs` lines 30-37): `b₀ = 1`, `bᵢ = ζ^{i²}` for `1 ≤ i < n`,
mirrored at `m − i`, and zero elsewhere below `m`. -/
def bluestein_b (ζ : R) (n m : ℕ) : ℕ → R :=
  fun j => if j = 0 then 1 else if j < n then ζ ^ (j * j)
    else if m < j + n then ζ ^ ((m - j) * (m - j)) else 0

/-- `inv_root_of_unity = ζ^{2n−1}` (`bluestein.rs` line 38). -/
def bluestein_inv_root (ζ : R) (n : ℕ) : R := ζ ^ (2 * n - 1)

/-- `FFTTableBluestein::fft_base` (`bluestein.rs` lines 59-102):
chirp-multiply and zero-pad the input to length `2^k`, convolve with the
transform of `b` through the power-of-two table, chirp-multiply again;
with `inv = true` the input is read reversed (index `(n−i) % n`) and the
result is scaled by `1/n`, supplied as the ring element `invn`. -/
def fft_base (ζ θ inv2k invn : R) (n k : ℕ) (inv : Bool) (x : ℕ → R) : ℕ → R :=
  fun i =>
    let u : ℕ → R := fun t =>
      if t < n then (if inv then x ((n - t) % n) else x t) * bluestein_inv_root ζ n ^ (t * t)
      else 0
    let w := ct_unordered_inv_fft θ inv2k k (fun t =>
      ct_unordered_fft θ k u t * ct_unordered_fft θ k (bluestein_b ζ n (2 ^ k)) t)
    if inv then w i * bluestein_inv_root ζ n ^ (i * i) * invn
    else w i * bluestein_inv_root ζ n ^ (i * i)

/-- Doubling the order and the exponent leaves `epow` at the squared
base. -/
theorem epow_two_mul {ζ : R} {n : ℕ} (hn : 0 < n) (e : ℤ) :
    epow ζ (2 * n) (2 * e) = epow (ζ ^ 2) n e := by
  unfold epow
  have h1 : (2 * e) % ((2 * n : ℕ) : ℤ) = 2 * (e % (n : ℤ)) := by
    push_cast
    exact Int.mul_emod_mul_of_pos e (n : ℤ) (by norm_num)
  rw [h1]
  have hnn : 0 ≤ e % (n : ℤ) := Int.emod_nonneg _ (by exact_mod_cast hn.ne')
  have h2 : (2 * (e % (n : ℤ))).toNat = 2 * (e % (n : ℤ)).toNat := by omega
  rw [h2, pow_mul]

/-- Combining the two chirp factors with the mirrored `b` entry yields the
plain transform character `ζ^{-2ia}`. -/
theorem bluestein_term_combine {ζ : R} {n : ℕ} (hζ : ζ ^ (2 * n) = 1) (hn : 0 < n)
    (i a d : ℕ)
    (hd : (d : ℤ) * (d : ℤ) = ((i : ℤ) - (a : ℤ)) * ((i : ℤ) - (a : ℤ))) :
    bluestein_inv_root ζ n ^ (a * a) * ζ ^ (d * d) * bluestein_inv_root ζ n ^ (i * i)
      = epow ζ (2 * n) (-(2 * (i : ℤ) * (a : ℤ))) := by
  have hn2 : 0 < 2 * n := by omega
  unfold bluestein_inv_root
  rw [← pow_mul, ← pow_mul, ← pow_add, ← pow_add]
  rw [show (ζ : R) ^ ((2 * n - 1) * (a * a) + d * d + (2 * n - 1) * (i * i))
      = epow ζ (2 * n) (((2 * n - 1) * (a * a) + d * d + (2 * n - 1) * (i * i) : ℕ) : ℤ)
    from (epow_eq_pow hζ hn2 rfl).symm]
  refine epow_congr (2 * n) ?_
  have h1 : ((2 * n - 1 : ℕ) : ℤ) = 2 * (n : ℤ) - 1 := by omega
  have hab : (((2 * n - 1) * (a * a) + d * d + (2 * n - 1) * (i * i) : ℕ) : ℤ)
      = -(2 * (i : ℤ) * (a : ℤ))
        + ((2 * n : ℕ) : ℤ) * ((a : ℤ) * (a : ℤ) + (i : ℤ) * (i : ℤ)) := by
    push_cast [h1]
    linear_combination hd
  rw [hab, Int.add_mul_emod_self_left]

/-- The forward `fft_base` computes the length-`n` discrete Fourier
transform `Fx_i = ∑ⱼ xⱼ ζ^{-2ij}` at the `n`-th root of unity `ζ²`. -/
theorem fft_base_dft (ζ θ inv2k invn : R) (n k : ℕ)
    (hn : 0 < n) (hm : 2 * n + 1 ≤ 2 ^ k)
    (hζ : ζ ^ (2 * n) = 1) (hθ : θ ^ 2 ^ k = 1)
    (horthθ : ∀ t, 0 < t → t < 2 ^ k →
      ∑ j ∈ Finset.range (2 ^ k), θ ^ (j * t % 2 ^ k) = 0)
    (hinv2k : inv2k * ((2 ^ k : ℕ) : R) = 1)
    (x : ℕ → R) (i : ℕ) (hi : i < n) :
    fft_base ζ θ inv2k invn n k false x i
      = ∑ j ∈ Finset.range n, x j * epow ζ (2 * n) (-(2 * (i : ℤ) * (j : ℤ))) := by
  have h2 : (0 : ℕ) < 2 ^ k := pow_pos (by norm_num) k
  show ct_unordered_inv_fft θ inv2k k
      (fun t => ct_unordered_fft θ k
          (fun s => if s < n then x s * bluestein_inv_root ζ n ^ (s * s) else 0) t
        * ct_unordered_fft θ k (bluestein_b ζ n (2 ^ k)) t) i
      * bluestein_inv_root ζ n ^ (i * i)
    = ∑ j ∈ Finset.range n, x j * epow ζ (2 * n) (-(2 * (i : ℤ) * (j : ℤ)))
  rw [ct_convolution θ inv2k k hθ horthθ hinv2k
      (fun s => if s < n then x s * bluestein_inv_root ζ n ^ (s * s) else 0)
      (bluestein_b ζ n (2 ^ k)) i, Finset.sum_mul]
  have hsub : Finset.range n ⊆ Finset.range (2 ^ k) :=
    Finset.range_subset.mpr (by omega)
  have hvan : ∀ a ∈ Finset.range (2 ^ k), a ∉ Finset.range n →
      (if a < n then x a * bluestein_inv_root ζ n ^ (a * a) else 0)
        * bluestein_b ζ n (2 ^ k) ((i + 2 ^ k - a) % 2 ^ k)
        * bluestein_inv_root ζ n ^ (i * i) = 0 := by
    intro a _ ha
    rw [if_neg (by simpa using ha), zero_mul, zero_mul]
  rw [← Finset.sum_subset hsub hvan]
  refine Finset.sum_congr rfl fun a ha => ?_
  have haN : a < n := Finset.mem_range.mp ha
  rw [if_pos haN]
  rcases le_or_lt a i with hcase | hcase
  · have hc : (i + 2 ^ k - a) % 2 ^ k = i - a := by
      have h1 : i + 2 ^ k - a = 2 ^ k + (i - a) := by omega
      rw [h1, Nat.add_mod_left]
      exact Nat.mod_eq_of_lt (by omega)
    have hb : bluestein_b ζ n (2 ^ k) (i - a) = ζ ^ ((i - a) * (i - a)) := by
      unfold bluestein_b
      by_cases h0 : i - a = 0
      · rw [if_pos h0, h0]
        simp
      · rw [if_neg h0, if_pos (by omega)]
    have hd : ((i - a : ℕ) : ℤ) * ((i - a : ℕ) : ℤ)
        = ((i : ℤ) - (a : ℤ)) * ((i : ℤ) - (a : ℤ)) := by
      have h5 : ((i - a : ℕ) : ℤ) = (i : ℤ) - (a : ℤ) := by omega
      rw [h5]
    rw [hc, hb]
    calc x a * bluestein_inv_root ζ n ^ (a * a) * ζ ^ ((i - a) * (i - a))
          * bluestein_inv_root ζ n ^ (i * i)
        = x a * (bluestein_inv_root ζ n ^ (a * a) * ζ ^ ((i - a) * (i - a))
            * bluestein_inv_root ζ n ^ (i * i)) := by ring
      _ = x a * epow ζ (2 * n) (-(2 * (i : ℤ) * (a : ℤ))) := by
          rw [bluestein_term_combine hζ hn i a (i - a) hd]
  · have hc : (i + 2 ^ k - a) % 2 ^ k = 2 ^ k - (a - i) := by
      have h1 : i + 2 ^ k - a = 2 ^ k - (a - i) := by omega
      rw [h1]
      exact Nat.mod_eq_of_lt (by omega)
    have hb : bluestein_b ζ n (2 ^ k) (2 ^ k - (a - i)) = ζ ^ ((a - i) * (a - i)) := by
      unfold bluestein_b
      rw [if_neg (by omega), if_neg (by omega), if_pos (by omega)]
      have h4 : 2 ^ k - (2 ^ k - (a - i)) = a - i := by omega
      rw [h4]
    have hd : ((a - i : ℕ) : ℤ) * ((a - i : ℕ) : ℤ)
        = ((i : ℤ) - (a : ℤ)) * ((i : ℤ) - (a : ℤ)) := by
      have h5 : ((a - i : ℕ) : ℤ) = (a : ℤ) - (i : ℤ) := by omega
      rw [h5]
      ring
    rw [hc, hb]
    calc x a * bluestein_inv_root ζ n ^ (a * a) * ζ ^ ((a - i) * (a - i))
          * bluestein_inv_root ζ n ^ (i * i)
        = x a * (bluestein_inv_root ζ n ^ (a * a) * ζ ^ ((a - i) * (a - i))
            * bluestein_inv_root ζ n ^ (i * i)) := by ring
      _ = x a * epow ζ (2 * n) (-(2 * (i : ℤ) * (a : ℤ))) := by
          rw [bluestein_term_combine hζ hn i a (a - i) hd]

end Bluestein

end fft

namespace fft

section BluesteinRoundTrip

variable {R : Type} [CommRing R]

/-- The inverse-flag transform is the forward transform of the reversed
input followed by the `1/n` scaling. -/
theorem fft_base_inv_eq (ζ θ inv2k invn : R) (n k : ℕ) (y : ℕ → R) (i : ℕ) :
    fft_base ζ θ inv2k invn n k true y i
      = fft_base ζ θ inv2k invn n k false (fun t => y ((n - t) % n)) i * invn := rfl

/-- The inverse-flag `fft_base` computes the mirrored character sum
`(∑ⱼ yⱼ ζ^{2ij}) / n`. -/
theorem fft_base_inv_dft (ζ θ inv2k invn : R) (n k : ℕ)
    (hn : 0 < n) (hm : 2 * n + 1 ≤ 2 ^ k)
    (hζ : ζ ^ (2 * n) = 1) (hθ : θ ^ 2 ^ k = 1)
    (horthθ : ∀ t, 0 < t → t < 2 ^ k →
      ∑ j ∈ Finset.range (2 ^ k), θ ^ (j * t % 2 ^ k) = 0)
    (hinv2k : inv2k * ((2 ^ k : ℕ) : R) = 1)
    (y : ℕ → R) (i : ℕ) (hi : i < n) :
    fft_base ζ θ inv2k invn n k true y i
      = (∑ j ∈ Finset.range n, y j * epow ζ (2 * n) (2 * (i : ℤ) * (j : ℤ))) * invn := by
  rw [fft_base_inv_eq, fft_base_dft ζ θ inv2k invn n k hn hm hζ hθ horthθ hinv2k
      (fun t => y ((n - t) % n)) i hi]
  congr 1
  have hcongr : ∀ j ∈ Finset.range n,
      y ((n - j) % n) * epow ζ (2 * n) (-(2 * (i : ℤ) * (j : ℤ)))
        = (fun t => y t * epow ζ (2 * n) (2 * (i : ℤ) * (t : ℤ))) ((n - j) % n) := by
    intro j hj
    have hjn := Finset.mem_range.mp hj
    show y ((n - j) % n) * epow ζ (2 * n) (-(2 * (i : ℤ) * (j : ℤ)))
      = y ((n - j) % n) * epow ζ (2 * n) (2 * (i : ℤ) * (((n - j) % n : ℕ) : ℤ))
    congr 1
    refine epow_congr (2 * n) ?_
    refine emod_eq_of_dvd_sub ?_
    rcases Nat.eq_zero_or_pos j with h0 | hpos
    · subst h0
      simp
    · have h1 : (n - j) % n = n - j := Nat.mod_eq_of_lt (by omega)
      rw [h1]
      have h5 : ((n - j : ℕ) : ℤ) = (n : ℤ) - (j : ℤ) := by omega
      rw [h5]
      exact ⟨(i : ℤ), by push_cast; ring⟩
  rw [Finset.sum_congr rfl hcongr]
  refine Finset.sum_nbij' (fun j => (n - j) % n) (fun j => (n - j) % n) ?_ ?_ ?_ ?_ ?_
  · intro a _
    exact Finset.mem_range.mpr (Nat.mod_lt _ hn)
  · intro a _
    exact Finset.mem_range.mpr (Nat.mod_lt _ hn)
  · intro a ha
    have haN := Finset.mem_range.mp ha
    show (n - (n - a) % n) % n = a
    rcases Nat.eq_zero_or_pos a with h0 | hpos
    · subst h0
      simp
    · have h1 : (n - a) % n = n - a := Nat.mod_eq_of_lt (by omega)
      rw [h1]
      have h2 : n - (n - a) = a := by omega
      rw [h2]
      exact Nat.mod_eq_of_lt haN
  · intro a ha
    have haN := Finset.mem_range.mp ha
    show (n - (n - a) % n) % n = a
    rcases Nat.eq_zero_or_pos a with h0 | hpos
    · subst h0
      simp
    · have h1 : (n - a) % n = n - a := Nat.mod_eq_of_lt (by omega)
      rw [h1]
      have h2 : n - (n - a) = a := by omega
      rw [h2]
      exact Nat.mod_eq_of_lt haN
  · intro a _
    rfl

/-- Applying the inverse Bluestein transform to the forward transform
recovers the input on all indices below `n`. -/
theorem bluestein_round_trip (ζ θ inv2k invn : R) (n k : ℕ)
    (hn : 0 < n) (hm : 2 * n + 1 ≤ 2 ^ k)
    (hζ : ζ ^ (2 * n) = 1) (hθ : θ ^ 2 ^ k = 1)
    (horthθ : ∀ t, 0 < t → t < 2 ^ k →
      ∑ j ∈ Finset.range (2 ^ k), θ ^ (j * t % 2 ^ k) = 0)
    (hinv2k : inv2k * ((2 ^ k : ℕ) : R) = 1)
    (horthζ : ∀ t, 0 < t → t < n →
      ∑ j ∈ Finset.range n, (ζ ^ 2) ^ (j * t % n) = 0)
    (hinvn : invn * ((n : ℕ) : R) = 1)
    (x : ℕ → R) (i : ℕ) (hi : i < n) :
    fft_base ζ θ inv2k invn n k true (fft_base ζ θ inv2k invn n k false x) i = x i := by
  have hn2 : 0 < 2 * n := by omega
  have hη : (ζ ^ 2) ^ n = 1 := by
    rw [← pow_mul]
    exact hζ
  rw [fft_base_inv_dft ζ θ inv2k invn n k hn hm hζ hθ horthθ hinv2k
      (fft_base ζ θ inv2k invn n k false x) i hi]
  have hfwd : ∀ j ∈ Finset.range n,
      fft_base ζ θ inv2k invn n k false x j * epow ζ (2 * n) (2 * (i : ℤ) * (j : ℤ))
        = ∑ p ∈ Finset.range n,
            x p * epow ζ (2 * n) (-(2 * (j : ℤ) * (p : ℤ)))
              * epow ζ (2 * n) (2 * (i : ℤ) * (j : ℤ)) := by
    intro j hj
    rw [fft_base_dft ζ θ inv2k invn n k hn hm hζ hθ horthθ hinv2k x j
        (Finset.mem_range.mp hj), Finset.sum_mul]
  rw [Finset.sum_congr rfl hfwd]
  have hstep : ∀ j p : ℕ,
      x p * epow ζ (2 * n) (-(2 * (j : ℤ) * (p : ℤ)))
          * epow ζ (2 * n) (2 * (i : ℤ) * (j : ℤ))
        = x p * epow (ζ ^ 2) n ((j : ℤ) * ((i : ℤ) - (p : ℤ))) := by
    intro j p
    rw [mul_assoc, ← epow_add hζ hn2]
    have he : -(2 * (j : ℤ) * (p : ℤ)) + 2 * (i : ℤ) * (j : ℤ)
        = 2 * ((j : ℤ) * ((i : ℤ) - (p : ℤ))) := by ring
    rw [he, epow_two_mul hn]
  rw [Finset.sum_congr rfl fun j _ => Finset.sum_congr rfl fun p _ => hstep j p,
    Finset.sum_comm]
  have hstep2 : ∀ p : ℕ,
      ∑ j ∈ Finset.range n, x p * epow (ζ ^ 2) n ((j : ℤ) * ((i : ℤ) - (p : ℤ)))
        = x p * (if ((i : ℤ) - (p : ℤ)) % ((n : ℕ) : ℤ) = 0
            then ((n : ℕ) : R) else 0) := by
    intro p
    rw [← Finset.mul_sum]
    congr 1
    exact sum_epow_orth hη hn horthζ ((i : ℤ) - (p : ℤ))
  rw [Finset.sum_congr rfl fun p _ => hstep2 p, sum_delta_pick x i hi (i : ℤ) rfl]
  calc x i * ((n : ℕ) : R) * invn = x i * (invn * ((n : ℕ) : R)) := by ring
    _ = x i := by rw [hinvn, mul_one]

end BluesteinRoundTrip

end fft

namespace fft

section FactorFFT

variable {R : Type} [CommRing R]

/-- Division of a block index: `(l·R + b) / R = l` when `b < R`. -/
theorem nat_block_div {rlen : ℕ} (hr : 0 < rlen) (l b : ℕ) (hb : b < rlen) :
    (l * rlen + b) / rlen = l := by
  rw [Nat.mul_comm, Nat.mul_add_div hr, Nat.div_eq_of_lt hb, Nat.add_zero]

/-- Remainder of a block index: `(l·R + b) % R = b` when `b < R`. -/
theorem nat_block_mod (rlen l b : ℕ) (hb : b < rlen) : (l * rlen + b) % rlen = b := by
  rw [Nat.mul_comm, Nat.mul_add_mod, Nat.mod_eq_of_lt hb]

/-- `FFTTableGenCooleyTuckey::new`'s root-of-unity power function
(`fft/factor_fft.rs` lines 62-66): nonnegative exponents directly,
negative exponents through the Rust remainder shifted by the length. -/
def root_of_unity_pows (root : R) (len : ℕ) (i : ℤ) : R :=
  if 0 ≤ i then root ^ i.toNat else root ^ ((len : ℤ) + i.tmod (len : ℤ)).toNat

/-- `FFTTableGenCooleyTuckey::create_twiddle_factors`
(`fft/factor_fft.rs` lines 84-92): entry `i` holds
`pows(left_perm(i / R) · (i % R))` where `R` is the right table length. -/
def create_twiddle_factors (pows : ℤ → R) (left_perm : ℕ → ℕ) (rlen : ℕ) : ℕ → R :=
  fun i => pows ((left_perm (i / rlen) * (i % rlen) : ℕ) : ℤ)

/-- `FFTTableGenCooleyTuckey::unordered_fft` (`fft/factor_fft.rs` lines
126-143): left transforms along the `R`-strided rows, pointwise
multiplication by the inverse twiddles, right transforms along the
contiguous length-`R` blocks. -/
def factor_unordered_fft (rlen : ℕ) (lfwd rfwd : (ℕ → R) → ℕ → R) (inv_tw : ℕ → R)
    (x : ℕ → R) : ℕ → R :=
  let step1 : ℕ → R := fun t => lfwd (fun l => x (l * rlen + t % rlen)) (t / rlen)
  let step2 : ℕ → R := fun t => step1 t * inv_tw t
  fun idx => rfwd (fun r => step2 (idx / rlen * rlen + r)) (idx % rlen)

/-- `FFTTableGenCooleyTuckey::unordered_inv_fft` (`fft/factor_fft.rs`
lines 145-163): right inverse transforms along the contiguous blocks,
pointwise multiplication by the forward twiddles, left inverse transforms
along the strided rows. -/
def factor_unordered_inv_fft (rlen : ℕ) (linv rinv : (ℕ → R) → ℕ → R) (tw : ℕ → R)
    (y : ℕ → R) : ℕ → R :=
  let step1 : ℕ → R := fun t => rinv (fun r => y (t / rlen * rlen + r)) (t % rlen)
  let step2 : ℕ → R := fun t => step1 t * tw t
  fun idx => linv (fun l => step2 (l * rlen + idx % rlen)) (idx / rlen)

/-- `unordered_fft_permutation` of the generic product table
(`fft/factor_fft.rs` lines 165-168). -/
def factor_fft_permutation (llen rlen : ℕ) (lperm rperm : ℕ → ℕ) (i : ℕ) : ℕ :=
  lperm (i / rlen) + llen * rperm (i % rlen)

/-- `unordered_fft_permutation_inv` (`fft/factor_fft.rs` lines 170-173). -/
def factor_fft_permutation_inv (llen rlen : ℕ) (lperm_inv rperm_inv : ℕ → ℕ) (i : ℕ) : ℕ :=
  lperm_inv (i % llen) * rlen + rperm_inv (i / llen)

/-- The `new`-built power function agrees with `epow` whenever `root` has
order dividing `len`. -/
theorem root_of_unity_pows_eq_epow (root : R) (len : ℕ) (hroot : root ^ len = 1)
    (hlen : 0 < len) (i : ℤ) : root_of_unity_pows root len i = epow root len i := by
  unfold root_of_unity_pows
  by_cases h : 0 ≤ i
  · rw [if_pos h]
    exact (epow_eq_pow hroot hlen (by rw [Int.toNat_of_nonneg h])).symm
  · rw [if_neg h]
    have hi0 : i < 0 := by omega
    have htd : i.tdiv (len : ℤ) = -((-i).tdiv (len : ℤ)) := by
      conv_lhs => rw [show i = -(-i) by ring]
      rw [Int.neg_tdiv]
    have hte : (-i).tdiv (len : ℤ) = (-i) / (len : ℤ) :=
      Int.tdiv_eq_ediv (by omega) (by positivity)
    have htmod : i.tmod (len : ℤ) = -((-i) % (len : ℤ)) := by
      rw [Int.tmod_def, htd, hte]
      have hdm := Int.ediv_add_emod (-i) (len : ℤ)
      rw [Int.mul_neg]
      omega
    have hm1 : (-i) % (len : ℤ) < (len : ℤ) :=
      Int.emod_lt_of_pos _ (by exact_mod_cast hlen)
    have hEt : (((len : ℤ) + i.tmod (len : ℤ)).toNat : ℤ)
        = (len : ℤ) - ((-i) % (len : ℤ)) := by
      rw [htmod, Int.toNat_of_nonneg (by omega)]
      ring
    refine (epow_eq_pow hroot hlen ?_).symm
    rw [hEt]
    have hdef := Int.emod_def (-i) (len : ℤ)
    exact emod_eq_of_dvd_sub ⟨-(1 + (-i) / (len : ℤ)), by linear_combination hdef⟩

/-- The inverse twiddle table built by `new` is the pointwise inverse of
the forward twiddle table. -/
theorem twiddle_inverse (root : R) (len : ℕ) (hroot : root ^ len = 1) (hlen : 0 < len)
    (lperm : ℕ → ℕ) (rlen : ℕ) (j : ℕ) :
    create_twiddle_factors (fun e => root_of_unity_pows root len (-e)) lperm rlen j
      * create_twiddle_factors (root_of_unity_pows root len) lperm rlen j = 1 := by
  unfold create_twiddle_factors
  show root_of_unity_pows root len (-((lperm (j / rlen) * (j % rlen) : ℕ) : ℤ))
      * root_of_unity_pows root len ((lperm (j / rlen) * (j % rlen) : ℕ) : ℤ) = 1
  rw [root_of_unity_pows_eq_epow root len hroot hlen,
    root_of_unity_pows_eq_epow root len hroot hlen, ← epow_add hroot hlen]
  rw [show -((lperm (j / rlen) * (j % rlen) : ℕ) : ℤ)
      + ((lperm (j / rlen) * (j % rlen) : ℕ) : ℤ) = 0 by ring]
  simp [epow]

/-- Round trip of the generic factor table with abstract component
transforms satisfying the `FFTTable` contract and pointwise-inverse
twiddle tables. -/
theorem factor_round_trip_core (llen rlen : ℕ) (hr : 0 < rlen)
    (lfwd linv rfwd rinv : (ℕ → R) → ℕ → R) (tw itw : ℕ → R)
    (hlrt : ∀ x : ℕ → R, ∀ i, i < llen → linv (lfwd x) i = x i)
    (hlext : ∀ x y : ℕ → R, (∀ j, j < llen → x j = y j) →
      ∀ i, i < llen → linv x i = linv y i)
    (hrrt : ∀ x : ℕ → R, ∀ i, i < rlen → rinv (rfwd x) i = x i)
    (hrext : ∀ x y : ℕ → R, (∀ j, j < rlen → x j = y j) →
      ∀ i, i < rlen → rinv x i = rinv y i)
    (htw : ∀ j : ℕ, itw j * tw j = 1)
    (x : ℕ → R) (idx : ℕ) (hidx : idx < llen * rlen) :
    factor_unordered_inv_fft rlen linv rinv tw
        (factor_unordered_fft rlen lfwd rfwd itw x) idx = x idx := by
  have hb : idx % rlen < rlen := Nat.mod_lt _ hr
  have ha : idx / rlen < llen := (Nat.div_lt_iff_lt_mul hr).mpr hidx
  show linv (fun l =>
      rinv (fun r => factor_unordered_fft rlen lfwd rfwd itw x
          ((l * rlen + idx % rlen) / rlen * rlen + r))
        ((l * rlen + idx % rlen) % rlen)
      * tw (l * rlen + idx % rlen)) (idx / rlen) = x idx
  have hstep : ∀ l, l < llen →
      rinv (fun r => factor_unordered_fft rlen lfwd rfwd itw x
          ((l * rlen + idx % rlen) / rlen * rlen + r))
        ((l * rlen + idx % rlen) % rlen)
      * tw (l * rlen + idx % rlen)
      = lfwd (fun s => x (s * rlen + idx % rlen)) l := by
    intro l _
    rw [nat_block_div hr l _ hb, nat_block_mod rlen l _ hb]
    have hagree : ∀ r, r < rlen →
        factor_unordered_fft rlen lfwd rfwd itw x (l * rlen + r)
        = rfwd (fun q => lfwd (fun s => x (s * rlen + (l * rlen + q) % rlen))
            ((l * rlen + q) / rlen) * itw (l * rlen + q)) r := by
      intro r hrr
      show rfwd (fun q => lfwd
          (fun s => x (s * rlen + ((l * rlen + r) / rlen * rlen + q) % rlen))
          (((l * rlen + r) / rlen * rlen + q) / rlen)
          * itw ((l * rlen + r) / rlen * rlen + q)) ((l * rlen + r) % rlen)
        = rfwd (fun q => lfwd (fun s => x (s * rlen + (l * rlen + q) % rlen))
            ((l * rlen + q) / rlen) * itw (l * rlen + q)) r
      rw [nat_block_div hr l r hrr, nat_block_mod rlen l r hrr]
    have h1 : rinv (fun r => factor_unordered_fft rlen lfwd rfwd itw x (l * rlen + r))
          (idx % rlen)
        = rinv (rfwd (fun q => lfwd (fun s => x (s * rlen + (l * rlen + q) % rlen))
            ((l * rlen + q) / rlen) * itw (l * rlen + q))) (idx % rlen) :=
      hrext _ _ (fun r hrr => hagree r hrr) _ hb
    rw [h1, hrrt _ _ hb]
    show lfwd (fun s => x (s * rlen + (l * rlen + idx % rlen) % rlen))
        ((l * rlen + idx % rlen) / rlen) * itw (l * rlen + idx % rlen)
        * tw (l * rlen + idx % rlen)
      = lfwd (fun s => x (s * rlen + idx % rlen)) l
    rw [nat_block_div hr l _ hb, nat_block_mod rlen l _ hb, mul_assoc, htw _, mul_one]
  rw [hlext _ _ (fun l hl' => hstep l hl') _ ha, hlrt _ _ ha]
  show x (idx / rlen * rlen + idx % rlen) = x idx
  rw [Nat.mul_comm (idx / rlen) rlen, Nat.div_add_mod]

end FactorFFT

end fft

namespace fft

section FactorPerm

/-- The product-table permutation pair is a mutually inverse pair of
bijections of `{0, …, L·R − 1}` whenever the component pairs are. -/
theorem factor_perm_bijection (llen rlen : ℕ) (hl : 0 < llen) (hr : 0 < rlen)
    (lperm lperm_inv rperm rperm_inv : ℕ → ℕ)
    (hlp : ∀ i, i < llen → lperm i < llen ∧ lperm_inv i < llen ∧
      lperm_inv (lperm i) = i ∧ lperm (lperm_inv i) = i)
    (hrp : ∀ i, i < rlen → rperm i < rlen ∧ rperm_inv i < rlen ∧
      rperm_inv (rperm i) = i ∧ rperm (rperm_inv i) = i)
    (i : ℕ) (hi : i < llen * rlen) :
    factor_fft_permutation llen rlen lperm rperm i < llen * rlen ∧
    factor_fft_permutation_inv llen rlen lperm_inv rperm_inv i < llen * rlen ∧
    factor_fft_permutation_inv llen rlen lperm_inv rperm_inv
      (factor_fft_permutation llen rlen lperm rperm i) = i ∧
    factor_fft_permutation llen rlen lperm rperm
      (factor_fft_permutation_inv llen rlen lperm_inv rperm_inv i) = i := by
  have hb : i % rlen < rlen := Nat.mod_lt _ hr
  have ha : i / rlen < llen := (Nat.div_lt_iff_lt_mul hr).mpr hi
  have hc : i % llen < llen := Nat.mod_lt _ hl
  have hd : i / llen < rlen := by
    refine (Nat.div_lt_iff_lt_mul hl).mpr ?_
    rw [Nat.mul_comm rlen llen]
    exact hi
  obtain ⟨hla, _, hlai, _⟩ := hlp (i / rlen) ha
  obtain ⟨hrb, _, hrbi, _⟩ := hrp (i % rlen) hb
  obtain ⟨_, hlc, _, hlci⟩ := hlp (i % llen) hc
  obtain ⟨_, hrd, _, hrdi⟩ := hrp (i / llen) hd
  refine ⟨?_, ?_, ?_, ?_⟩
  · unfold factor_fft_permutation
    have h1 : lperm (i / rlen) + llen * rperm (i % rlen)
        < llen * (1 + rperm (i % rlen)) := by
      have hexp : llen * (1 + rperm (i % rlen)) = llen + llen * rperm (i % rlen) := by
        ring
      omega
    have h2 : llen * (1 + rperm (i % rlen)) ≤ llen * rlen :=
      Nat.mul_le_mul_left _ (by omega)
    omega
  · unfold factor_fft_permutation_inv
    have h1 : (lperm_inv (i % llen) + 1) * rlen ≤ llen * rlen :=
      Nat.mul_le_mul_right _ (by omega)
    have hexp : (lperm_inv (i % llen) + 1) * rlen
        = lperm_inv (i % llen) * rlen + rlen := by ring
    omega
  · unfold factor_fft_permutation factor_fft_permutation_inv
    rw [Nat.add_mul_mod_self_left (lperm (i / rlen)) llen (rperm (i % rlen)),
      Nat.mod_eq_of_lt hla,
      Nat.add_mul_div_left (lperm (i / rlen)) (rperm (i % rlen)) hl,
      Nat.div_eq_of_lt hla, Nat.zero_add, hlai, hrbi,
      Nat.mul_comm (i / rlen) rlen, Nat.div_add_mod]
  · unfold factor_fft_permutation factor_fft_permutation_inv
    rw [nat_block_div hr (lperm_inv (i % llen)) (rperm_inv (i / llen)) hrd,
      nat_block_mod rlen (lperm_inv (i % llen)) (rperm_inv (i / llen)) hrd,
      hlci, hrdi, Nat.mod_add_div i llen]

end FactorPerm

end fft

namespace fft

/-- C4: FFT round trips and permutation bijectivity for the FFT tables of
the crate.  Over any commutative ring in which the supplied roots of unity
are principal (their nontrivial geometric power sums vanish, as holds in
the exact rings the constructors accept) and the required scalings exist:
(1) the power-of-two table's `unordered_inv_fft` inverts `unordered_fft`;
(2) the trait-default ordered `fft`/`inv_fft` round-trip for every table
whose unordered transforms round-trip and whose permutation pair is
inverse; (3) the power-of-two permutation `bitrev k` is a self-inverse
bijection of `{0, …, 2^k−1}`; (4) the Bluestein table's inverse transform
inverts the forward transform on length-`n` inputs; (5) the generic factor
table's `unordered_inv_fft` inverts `unordered_fft` with the twiddle
tables built by `new`, whenever the component tables satisfy the
`FFTTable` contract; (6) the factor table's permutation and inverse
permutation are mutually inverse bijections of `{0, …, L·R−1}`. -/
theorem fft_round_trips (R : Type) [CommRing R] :
    (∀ (ω inv2k : R) (k : ℕ), ω ^ 2 ^ k = 1 →
      (∀ t, t < 2 ^ k → 0 < t →
        ∑ j ∈ Finset.range (2 ^ k), ω ^ (j * t % 2 ^ k) = 0) →
      inv2k * ((2 ^ k : ℕ) : R) = 1 →
      ∀ (x : ℕ → R) (i : ℕ), i < 2 ^ k →
        ct_unordered_inv_fft ω inv2k k (ct_unordered_fft ω k x) i = x i) ∧
    (∀ (unord unord_inv : (ℕ → R) → ℕ → R) (perm perm_inv : ℕ → ℕ) (len : ℕ),
      (∀ x : ℕ → R, ∀ i, i < len → unord_inv (unord x) i = x i) →
      (∀ x y : ℕ → R, (∀ j, j < len → x j = y j) →
        ∀ i, i < len → unord_inv x i = unord_inv y i) →
      (∀ i, i < len → perm i < len ∧ perm_inv (perm i) = i) →
      ∀ (x : ℕ → R) (i : ℕ), i < len →
        inv_fft_ordered unord_inv perm (fft_ordered unord perm_inv x) i = x i) ∧
    (∀ k i : ℕ, i < 2 ^ k →
      ct_unordered_fft_permutation k i < 2 ^ k ∧
      ct_unordered_fft_permutation k (ct_unordered_fft_permutation k i) = i) ∧
    (∀ (ζ θ inv2k invn : R) (n k : ℕ), 0 < n → 2 * n + 1 ≤ 2 ^ k →
      ζ ^ (2 * n) = 1 → θ ^ 2 ^ k = 1 →
      (∀ t, t < 2 ^ k → 0 < t →
        ∑ j ∈ Finset.range (2 ^ k), θ ^ (j * t % 2 ^ k) = 0) →
      inv2k * ((2 ^ k : ℕ) : R) = 1 →
      (∀ t, t < n → 0 < t → ∑ j ∈ Finset.range n, (ζ ^ 2) ^ (j * t % n) = 0) →
      invn * ((n : ℕ) : R) = 1 →
      ∀ (x : ℕ → R) (i : ℕ), i < n →
        fft_base ζ θ inv2k invn n k true (fft_base ζ θ inv2k invn n k false x) i = x i) ∧
    (∀ (root : R) (llen rlen : ℕ), 0 < llen → 0 < rlen →
      root ^ (llen * rlen) = 1 →
      ∀ (lfwd linv rfwd rinv : (ℕ → R) → ℕ → R) (lperm : ℕ → ℕ),
      (∀ x : ℕ → R, ∀ i, i < llen → linv (lfwd x) i = x i) →
      (∀ x y : ℕ → R, (∀ j, j < llen → x j = y j) →
        ∀ i, i < llen → linv x i = linv y i) →
      (∀ x : ℕ → R, ∀ i, i < rlen → rinv (rfwd x) i = x i) →
      (∀ x y : ℕ → R, (∀ j, j < rlen → x j = y j) →
        ∀ i, i < rlen → rinv x i = rinv y i) →
      ∀ (x : ℕ → R) (idx : ℕ), idx < llen * rlen →
        factor_unordered_inv_fft rlen linv rinv
            (create_twiddle_factors (root_of_unity_pows root (llen * rlen)) lperm rlen)
            (factor_unordered_fft rlen lfwd rfwd
              (create_twiddle_factors
                (fun e => root_of_unity_pows root (llen * rlen) (-e)) lperm rlen) x)
            idx
          = x idx) ∧
    (∀ (llen rlen : ℕ) (lperm lperm_inv rperm rperm_inv : ℕ → ℕ),
      0 < llen → 0 < rlen →
      (∀ i, i < llen → lperm i < llen ∧ lperm_inv i < llen ∧
        lperm_inv (lperm i) = i ∧ lperm (lperm_inv i) = i) →
      (∀ i, i < rlen → rperm i < rlen ∧ rperm_inv i < rlen ∧
        rperm_inv (rperm i) = i ∧ rperm (rperm_inv i) = i) →
      ∀ i, i < llen * rlen →
        factor_fft_permutation llen rlen lperm rperm i < llen * rlen ∧
        factor_fft_permutation_inv llen rlen lperm_inv rperm_inv i < llen * rlen ∧
        factor_fft_permutation_inv llen rlen lperm_inv rperm_inv
          (factor_fft_permutation llen rlen lperm rperm i) = i ∧
        factor_fft_permutation llen rlen lperm rperm
          (factor_fft_permutation_inv llen rlen lperm_inv rperm_inv i) = i) := by
  refine ⟨?_, ?_, ?_, ?_, ?_, ?_⟩
  · intro ω inv2k k hω horth hinv x i hi
    exact ct_round_trip ω inv2k k hω (fun t h1 h2 => horth t h2 h1) hinv x i hi
  · intro unord unord_inv perm perm_inv len hrt hext hperm x i hi
    exact ordered_round_trip unord unord_inv perm perm_inv len hrt hext hperm x i hi
  · intro k i hi
    exact ⟨bitrev_lt k i, bitrev_bitrev k i hi⟩
  · intro ζ θ inv2k invn n k hn hm hζ hθ horthθ hinv2k horthζ hinvn x i hi
    exact bluestein_round_trip ζ θ inv2k invn n k hn hm hζ hθ
      (fun t h1 h2 => horthθ t h2 h1) hinv2k (fun t h1 h2 => horthζ t h2 h1) hinvn x i hi
  · intro root llen rlen hl hr hroot lfwd linv rfwd rinv lperm hlrt hlext hrrt hrext x idx hidx
    refine factor_round_trip_core llen rlen hr lfwd linv rfwd rinv _ _
      hlrt hlext hrrt hrext ?_ x idx hidx
    intro j
    exact twiddle_inverse root (llen * rlen) hroot (Nat.mul_pos hl hr) lperm rlen j
  · intro llen rlen lperm lperm_inv rperm rperm_inv hl hr hlp hrp i hi
    exact factor_perm_bijection llen rlen hl hr lperm lperm_inv rperm rperm_inv hlp hrp i hi

end fft

/-- Witness for C4 at concrete inputs: the power-of-two table over
`Z/17Z` with `ω = 4`, `k = 2`, the ordered transforms and the `bitrev`
bijection at the same parameters, the Bluestein table over `Z/241Z` with
`ζ = 36`, `θ = 111`, `n = 5`, `k = 4`, and the factor table over `Z/17Z`
with `root = 2`, `L = 4`, `R = 2`. -/
theorem fft_round_trips_witness :
    fft.ct_unordered_inv_fft (4 : ZMod 17) 13 2
      (fft.ct_unordered_fft (4 : ZMod 17) 2 (fun j => (j : ZMod 17))) 1 = (1 : ZMod 17) ∧
    fft.inv_fft_ordered (fft.ct_unordered_inv_fft (4 : ZMod 17) 13 2) (fft.bitrev 2)
      (fft.fft_ordered (fft.ct_unordered_fft (4 : ZMod 17) 2) (fft.bitrev 2)
        (fun j => (j : ZMod 17))) 2 = (2 : ZMod 17) ∧
    (fft.ct_unordered_fft_permutation 2 3 < 4 ∧
      fft.ct_unordered_fft_permutation 2 (fft.ct_unordered_fft_permutation 2 3) = 3) ∧
    fft.fft_base (36 : ZMod 241) 111 226 193 5 4 true
      (fft.fft_base (36 : ZMod 241) 111 226 193 5 4 false (fun j => (j : ZMod 241))) 2
      = (2 : ZMod 241) ∧
    fft.factor_unordered_inv_fft 2 (fft.ct_unordered_inv_fft (4 : ZMod 17) 13 2)
        (fft.ct_unordered_inv_fft (16 : ZMod 17) 9 1)
        (fft.create_twiddle_factors (fft.root_of_unity_pows (2 : ZMod 17) 8)
          (fft.bitrev 2) 2)
        (fft.factor_unordered_fft 2 (fft.ct_unordered_fft (4 : ZMod 17) 2)
          (fft.ct_unordered_fft (16 : ZMod 17) 1)
          (fft.create_twiddle_factors
            (fun e => fft.root_of_unity_pows (2 : ZMod 17) 8 (-e)) (fft.bitrev 2) 2)
          (fun j => (j : ZMod 17))) 5 = (5 : ZMod 17) ∧
    (fft.factor_fft_permutation 4 2 (fft.bitrev 2) (fft.bitrev 1) 5 < 8 ∧
      fft.factor_fft_permutation_inv 4 2 (fft.bitrev 2) (fft.bitrev 1)
        (fft.factor_fft_permutation 4 2 (fft.bitrev 2) (fft.bitrev 1) 5) = 5) := by
  have h17 := fft.fft_round_trips (ZMod 17)
  have h241 := fft.fft_round_trips (ZMod 241)
  refine ⟨?_, ?_, ?_, ?_, ?_, ?_⟩
  · exact h17.1 4 13 2 (by decide) (by decide) (by decide)
      (fun j => (j : ZMod 17)) 1 (by decide)
  · exact h17.2.1 (fft.ct_unordered_fft (4 : ZMod 17) 2)
      (fft.ct_unordered_inv_fft (4 : ZMod 17) 13 2) (fft.bitrev 2) (fft.bitrev 2) 4
      (h17.1 4 13 2 (by decide) (by decide) (by decide))
      (fun x y hxy i _ => fft.ct_unordered_inv_fft_ext 4 13 2 x y hxy i)
      (by decide) (fun j => (j : ZMod 17)) 2 (by decide)
  · exact h17.2.2.1 2 3 (by decide)
  · exact h241.2.2.2.1 36 111 226 193 5 4 (by decide) (by decide) (by decide) (by decide)
      (by decide) (by decide) (by decide) (by decide) (fun j => (j : ZMod 241)) 2 (by decide)
  · exact h17.2.2.2.2.1 2 4 2 (by decide) (by decide) (by decide)
      (fft.ct_unordered_fft (4 : ZMod 17) 2) (fft.ct_unordered_inv_fft (4 : ZMod 17) 13 2)
      (fft.ct_unordered_fft (16 : ZMod 17) 1) (fft.ct_unordered_inv_fft (16 : ZMod 17) 9 1)
      (fft.bitrev 2)
      (h17.1 4 13 2 (by decide) (by decide) (by decide))
      (fun x y hxy i _ => fft.ct_unordered_inv_fft_ext 4 13 2 x y hxy i)
      (h17.1 16 9 1 (by decide) (by decide) (by decide))
      (fun x y hxy i _ => fft.ct_unordered_inv_fft_ext 16 9 1 x y hxy i)
      (fun j => (j : ZMod 17)) 5 (by decide)
  · exact ⟨(h17.2.2.2.2.2 4 2 (fft.bitrev 2) (fft.bitrev 2) (fft.bitrev 1) (fft.bitrev 1)
        (by decide) (by decide) (by decide) (by decide) 5 (by decide)).1,
      (h17.2.2.2.2.2 4 2 (fft.bitrev 2) (fft.bitrev 2) (fft.bitrev 1) (fft.bitrev 1)
        (by decide) (by decide) (by decide) (by decide) 5 (by decide)).2.2.1⟩

/-- C5: the Bluestein FFT of length 5 over `Z/241Z` built with the
`2n`-th root of unity `36` and the `m`-th root of unity `111` (`m = 16`)
maps the input `[1, 3, 2, 0, 7]` to `[13, 137, 202, 206, 170]`, and the
inverse transform applied to that output restores the input
(`bluestein.rs` tests `test_fft_base` and `test_inv_fft_base`). -/
theorem bluestein_fft_base_241 :
    (∀ i, i < 5 → fft.fft_base (36 : ZMod 241) 111 226 193 5 4 false
        (fun j => [1, 3, 2, 0, 7].getD j 0) i = [13, 137, 202, 206, 170].getD i 0) ∧
    (∀ i, i < 5 → fft.fft_base (36 : ZMod 241) 111 226 193 5 4 true
        (fun j => [13, 137, 202, 206, 170].getD j 0) i = [1, 3, 2, 0, 7].getD i 0) := by
  constructor <;> (intro i hi; interval_cases i <;> decide)

/-- Witness for C5 at index `1`: the forward transform sends the input to
`137` there and the inverse transform sends the expected output back to
`3`. -/
theorem bluestein_fft_base_241_witness :
    fft.fft_base (36 : ZMod 241) 111 226 193 5 4 false
        (fun j => [1, 3, 2, 0, 7].getD j 0) 1 = 137 ∧
    fft.fft_base (36 : ZMod 241) 111 226 193 5 4 true
        (fun j => [13, 137, 202, 206, 170].getD j 0) 1 = 3 :=
  ⟨bluestein_fft_base_241.1 1 (by decide), bluestein_fft_base_241.2 1 (by decide)⟩

/-! ## Sparse row echelon (`algorithms/sparse_invert.rs`) -/

/-- `gb_sparse_row_echelon`'s global block count
(`sparse_invert.rs` lines 584-585 and `into_internal_matrix` line 81):
`let n = 256; let global_cols = (matrix.col_count() - 1) / n + 1;` with the
`usize` subtraction wrapping modulo `2^64` (release-profile semantics; a
debug build panics on the underflow instead). -/
def gb_global_cols (col_count : ℕ) : ℕ :=
  ((col_count + 2 ^ 64 - 1) % 2 ^ 64) / 256 + 1

/-- C1, counterexample to the claim as stated: the empty
`SparseMatrixBuilder` (no `add_col` call, so `col_count = 0`) is a legal
input, but the first computation of `gb_sparse_row_echelon` already
misbehaves on it: `(0usize - 1) / 256 + 1` wraps to `2^56` global column
blocks — `2^56 · 256 = 2^64` columns — instead of `0` (in a debug build
the subtraction panics), while every matrix with at least one column gets
the intended `(c − 1) / 256 + 1` blocks.  `blocked_row_echelon` then pads
the matrix with `256` rows of `2^56` blocks each, so no row echelon form
is returned for this input. -/
theorem gb_sparse_row_echelon_empty_matrix_bug :
    gb_global_cols 0 = 2 ^ 56 ∧
    gb_global_cols 1 = 1 ∧
    gb_global_cols 256 = 1 ∧
    gb_global_cols 257 = 2 ∧
    2 ^ 56 * 256 = 2 ^ 64 := by decide
